import Mathlib

/-!
# Verification of `Huffman.py`

A shallow embedding of the Huffman coding module and proofs about it.

Conventions of the embedding:
* a Python string of characters is a `List Char`;
* a Python bit string (a string of `'0'`/`'1'`) is a `List Bool`, with `'1' = true`
  and `'0' = false`;
* a Python dict is an association list in insertion order: assignment updates in
  place when the key is present and appends otherwise, `pop` removes the entry;
* Python float division is modelled exactly over `ℚ`; a `ZeroDivisionError`,
  `KeyError` or `ValueError` makes the embedded function return `none`;
* `math.ceil(math.log(n, 2))` is modelled as the exact ceiling of the real
  base-2 logarithm (`ceilLog2`);
* a Python `set` of characters is modelled as the first-occurrence-ordered list
  of distinct characters (CPython set iteration order is unspecified; every
  property proved below is independent of that order);
* `sorted(keys, key=frequencies.get, reverse=True)` is the stable descending
  sort by the given key, realised by insertion sort.
-/

namespace Huffman

abbrev Bits := List Bool

/-- Dict lookup `d[k]` (`none` models a `KeyError`). -/
def alookup {κ ν : Type} [DecidableEq κ] : List (κ × ν) → κ → Option ν
  | [], _ => none
  | (k0, v0) :: ps, k => if k = k0 then some v0 else alookup ps k

/-- Dict assignment `d[k] = v`: update in place when present, append otherwise. -/
def aset {κ ν : Type} [DecidableEq κ] : List (κ × ν) → κ → ν → List (κ × ν)
  | [], k, v => [(k, v)]
  | (k0, v0) :: ps, k, v => if k = k0 then (k0, v) :: ps else (k0, v0) :: aset ps k v

/-- Dict removal `d.pop(k)`. -/
def aerase {κ ν : Type} [DecidableEq κ] : List (κ × ν) → κ → List (κ × ν)
  | [], _ => []
  | (k0, v0) :: ps, k => if k = k0 then ps else (k0, v0) :: aerase ps k

/-- The frequency-map loop of `generateHuffman` (lines 15-18):
`for char in text: if char not in frequencies.keys(): frequencies[char] = text.count(char)`.
Keys start out as one-character strings. -/
def mkFrequencies (text : List Char) : List (List Char × Nat) :=
  text.foldl
    (fun freqs c =>
      if (alookup freqs [c]).isSome then freqs
      else aset freqs [c] (text.count c))
    []

/-- `frequencies.get`, as used for the sort key (every sorted key is present). -/
def freqGet (freqs : List (List Char × Nat)) (k : List Char) : Nat :=
  (alookup freqs k).getD 0

/-- Stable descending insertion: `x` goes after every earlier element whose key
is at least `key x`. -/
def insertDescBy (key : List Char → Nat) (x : List Char) : List (List Char) → List (List Char)
  | [] => [x]
  | y :: ys => if key x ≤ key y then y :: insertDescBy key x ys else x :: y :: ys

/-- `sorted(l, key=key, reverse=True)`: the stable descending sort. -/
def sortedDescBy (key : List Char → Nat) (l : List (List Char)) : List (List Char) :=
  l.foldl (fun acc x => insertDescBy key x acc) []

/-- The body of the code-update loops (lines 36-41 and 44-49): prepend bit `b`
to `code[ch]`, creating the entry as the one-bit string `b` when absent. -/
def updOne (b : Bool) (code : List (Char × Bits)) (ch : Char) : List (Char × Bits) :=
  match alookup code ch with
  | some curr => aset code ch (b :: curr)
  | none => aset code ch [b]

/-- One `for char in group` pass of the code-update loops (lines 35-49). -/
def prependBit (b : Bool) (group : List Char) (code : List (Char × Bits)) :
    List (Char × Bits) :=
  group.foldl (updOne b) code

/-- The `while len(sorted_chars) > 1` merge loop of `generateHuffman`
(lines 23-49), with explicit fuel (each iteration removes at least one key, so
`frequencies.length` fuel is enough).  State: `(frequencies, code, total_bits)`.
Popping the last two elements of the descending sort is reading the first two
elements of its reverse. -/
def huffLoop : Nat → List (List Char × Nat) → List (Char × Bits) → Nat →
    List (List Char × Nat) × List (Char × Bits) × Nat
  | 0, freqs, code, totalBits => (freqs, code, totalBits)
  | fuel + 1, freqs, code, totalBits =>
    match (sortedDescBy (freqGet freqs) (freqs.map Prod.fst)).reverse with
    | smallest :: second :: _ =>
      let fsum := freqGet freqs smallest + freqGet freqs second
      let freqs1 := aset freqs (smallest ++ second) fsum
      let freqs2 := aerase (aerase freqs1 smallest) second
      let code2 := prependBit false second (prependBit true smallest code)
      huffLoop fuel freqs2 code2 (totalBits + fsum)
    | _ => (freqs, code, totalBits)

/-- `generateHuffman` (lines 4-51).  Returns the code table and
`total_bits / total_chars`; `none` models the `ZeroDivisionError` on an empty
corpus. -/
def generateHuffman (text : List Char) : Option (List (Char × Bits) × ℚ) :=
  let frequencies := mkFrequencies text
  let r := huffLoop frequencies.length frequencies [] 0
  if text.length = 0 then none
  else some (r.2.1, (r.2.2 : ℚ) / (text.length : ℚ))

/-- The distinct characters of `text` in first-occurrence order (models the
`unique_chars` set; see the header on set iteration order). -/
def uniqueChars (text : List Char) : List Char :=
  text.foldl (fun acc c => if c ∈ acc then acc else acc ++ [c]) []

/-- `bin(n)` without the `0b` prefix, as bits, most significant first; structural
fuel recursion (`n` itself is enough fuel). -/
def natBitsAux : Nat → Nat → List Bool
  | 0, _ => []
  | _ + 1, 0 => []
  | fuel + 1, n + 1 => natBitsAux fuel ((n + 1) / 2) ++ [decide ((n + 1) % 2 = 1)]

/-- `bin(n)` (so `natToBits 0 = [false]`, matching `bin(0) = "0"`). -/
def natToBits (n : Nat) : List Bool :=
  if n = 0 then [false] else natBitsAux n n

/-- `s.zfill(w)`: left-pad with `'0'` up to width `w` (no-op when already long
enough). -/
def zfill (w : Nat) (bs : List Bool) : List Bool :=
  List.replicate (w - bs.length) false ++ bs

/-- The exact value of `math.ceil(math.log(n, 2))` for `n ≥ 1`: the least `k`
with `n ≤ 2 ^ k`. -/
def ceilLog2 (n : Nat) : Nat :=
  if n ≤ 1 then 0 else (natToBits (n - 1)).length

/-- The enumeration loop of `generateBin` (lines 68-72), threading the counter
`i`. -/
def binTable (w : Nat) (chars : List Char) : List (Char × Bits) :=
  (chars.foldl
    (fun (st : List (Char × Bits) × Nat) c =>
      (aset st.1 c (zfill w (natToBits st.2)), st.2 + 1))
    ([], 0)).1

/-- `generateBin` (lines 54-74); `none` models the `ValueError` of
`math.log(0, 2)` on an empty corpus. -/
def generateBin (text : List Char) : Option (List (Char × Bits) × Nat) :=
  let unique := uniqueChars text
  if unique.length = 0 then none
  else
    let w := ceilLog2 unique.length
    some (binTable w unique, w)

/-- `generateAscii` (lines 77-95): `bin(ord(char)).zfill(7)` for every distinct
character (the loop counter `i` of the source is incremented but never used),
bit rate 7.  It never raises. -/
def generateAscii (text : List Char) : List (Char × Bits) × Nat :=
  ((uniqueChars text).foldl
    (fun cd c => aset cd c (zfill 7 (natToBits c.toNat)))
    [], 7)

/-- `encode` (lines 98-110): concatenate `code[char]`; `none` models the
`KeyError` on a character that is absent from the table. -/
def encode : List Char → List (Char × Bits) → Option Bits
  | [], _ => some []
  | c :: cs, code =>
    match alookup code c, encode cs code with
    | some v, some rest => some (v ++ rest)
    | _, _ => none

/-- `max([len(x) for x in code.values()])` (0 for the empty table; the source
only evaluates this expression when the table is non-empty). -/
def maxCodeLen (code : List (Char × Bits)) : Nat :=
  (code.map (fun p => p.2.length)).foldr max 0

/-- One appended bit of `decode` (lines 123-133): extend the running buffer,
then scan every table entry in order; an exact match emits the character and
resets the buffer, and a buffer longer than the longest code emits the unknown
marker `'?'` and resets the buffer. -/
def decodeStep (code : List (Char × Bits)) (mx : Nat) (st : List Char × Bits)
    (b : Bool) : List Char × Bits :=
  code.foldl
    (fun s p =>
      if s.2 = p.2 then (s.1 ++ [p.1], [])
      else if s.2.length > mx then (s.1 ++ ['?'], [])
      else s)
    (st.1, st.2 ++ [b])

/-- The full decode scan: final `(result, running_bits)` state. -/
def decodeRun (bits : Bits) (code : List (Char × Bits)) : List Char × Bits :=
  bits.foldl (decodeStep code (maxCodeLen code)) ([], [])

/-- `decode` (lines 113-135): the result string; the final running buffer is
discarded. -/
def decode (bits : Bits) (code : List (Char × Bits)) : List Char :=
  (decodeRun bits code).1

/-- `compressionRate` (lines 138-156); `none` models any of the exceptions on
the way (building either code, a `KeyError` in either encode, or the final
`ZeroDivisionError`). -/
def compressionRate (text generator : List Char) (ty : Char) : Option ℚ :=
  let base := if ty = 'A' then some (generateAscii generator) else generateBin generator
  match base, generateHuffman generator with
  | some (baseCode, _), some (huffCode, _) =>
    match encode text baseCode, encode text huffCode with
    | some baseEnc, some huffEnc =>
      if huffEnc.length = 0 then none
      else some ((baseEnc.length : ℚ) / (huffEnc.length : ℚ))
    | _, _ => none
  | _, _ => none

/-- The concatenation, in input order, of the table entries of the symbols of a
text (the value a fully successful `encode` returns). -/
def codeConcat (code : List (Char × Bits)) : List Char → Bits
  | [] => []
  | c :: cs => (alookup code c).getD [] ++ codeConcat code cs

/-- The numeric value of a most-significant-bit-first bit string (used to show
distinct numbers get distinct code words). -/
def bitsToNat (bs : Bits) : Nat :=
  bs.foldl (fun a b => 2 * a + cond b 1 0) 0

/-- The code word assigned to `c` so far (`[]` when `c` has no entry yet); the
merge loop uniformly turns this into `bit :: codeWord code c`. -/
def codeWord (code : List (Char × Bits)) (c : Char) : Bits :=
  (alookup code c).getD []

/-- All characters appearing in the keys of the frequency dict (the keys
partition the distinct characters of the corpus). -/
def charsOf (freqs : List (List Char × Nat)) : List Char :=
  (freqs.map Prod.fst).flatten

/-- Proof-auxiliary ascending insertion (used to reason about the merge costs
of the `while` loop; not part of the translated program). -/
def insertAsc (x : Nat) : List Nat → List Nat
  | [] => [x]
  | y :: ys => if x ≤ y then x :: y :: ys else y :: insertAsc x ys

/-- Proof-auxiliary ascending insertion sort. -/
def sortAsc (l : List Nat) : List Nat :=
  l.foldr insertAsc []

/-- Proof-auxiliary: the sum of the `k` smallest elements of `l` (all of `l`
when `k ≥ l.length`).  The total cost of the merge loop's next `j` merges is
bounded by `minSum (2*j)` of the current frequency values. -/
def minSum (k : Nat) (l : List Nat) : Nat :=
  ((sortAsc l).take k).sum

/-! ## Association-list lemmas -/

theorem alookup_eq_none {κ ν : Type} [DecidableEq κ] (l : List (κ × ν)) (k : κ) :
    alookup l k = none ↔ k ∉ l.map Prod.fst := by
  induction l with
  | nil => simp [alookup]
  | cons p ps ih =>
    obtain ⟨k0, v0⟩ := p
    by_cases h : k = k0 <;> simp [alookup, h, ih]

theorem alookup_isSome {κ ν : Type} [DecidableEq κ] (l : List (κ × ν)) (k : κ) :
    (alookup l k).isSome ↔ k ∈ l.map Prod.fst := by
  rw [Option.isSome_iff_ne_none, Ne, alookup_eq_none, not_not]

theorem mem_of_alookup_eq_some {κ ν : Type} [DecidableEq κ] {l : List (κ × ν)}
    {k : κ} {v : ν} (h : alookup l k = some v) : (k, v) ∈ l := by
  induction l with
  | nil => simp [alookup] at h
  | cons p ps ih =>
    obtain ⟨k0, v0⟩ := p
    simp only [alookup] at h
    split at h
    · next heq =>
      simp only [Option.some.injEq] at h
      subst h; subst heq
      exact List.mem_cons_self _ _
    · exact List.mem_cons_of_mem _ (ih h)

theorem alookup_eq_some_of_mem {κ ν : Type} [DecidableEq κ] {l : List (κ × ν)}
    {k : κ} {v : ν} (hnd : (l.map Prod.fst).Nodup) (h : (k, v) ∈ l) :
    alookup l k = some v := by
  induction l with
  | nil => simp at h
  | cons p ps ih =>
    obtain ⟨k0, v0⟩ := p
    simp only [List.map_cons, List.nodup_cons] at hnd
    rcases List.mem_cons.1 h with heq | hmem
    · obtain ⟨rfl, rfl⟩ := Prod.mk.injEq .. ▸ heq
      simp [alookup]
    · have hk : k ≠ k0 := by
        rintro rfl
        exact hnd.1 (List.mem_map_of_mem Prod.fst hmem)
      simp [alookup, hk, ih hnd.2 hmem]

theorem aset_of_not_mem {κ ν : Type} [DecidableEq κ] {l : List (κ × ν)} {k : κ}
    (v : ν) (h : k ∉ l.map Prod.fst) : aset l k v = l ++ [(k, v)] := by
  induction l with
  | nil => rfl
  | cons p ps ih =>
    obtain ⟨k0, v0⟩ := p
    simp only [List.map_cons, List.mem_cons, not_or] at h
    simp [aset, h.1, ih h.2]

theorem alookup_aset_self {κ ν : Type} [DecidableEq κ] (l : List (κ × ν)) (k : κ) (v : ν) :
    alookup (aset l k v) k = some v := by
  induction l with
  | nil => simp [aset, alookup]
  | cons p ps ih =>
    obtain ⟨k0, v0⟩ := p
    by_cases h : k = k0 <;> simp [aset, alookup, h, ih]

theorem alookup_aset_ne {κ ν : Type} [DecidableEq κ] (l : List (κ × ν)) {k k' : κ}
    (v : ν) (h : k' ≠ k) : alookup (aset l k v) k' = alookup l k' := by
  induction l with
  | nil => simp [aset, alookup, h]
  | cons p ps ih =>
    obtain ⟨k0, v0⟩ := p
    by_cases hk : k = k0
    · subst hk; simp [aset, alookup, h, ih]
    · by_cases hk' : k' = k0 <;> simp [aset, alookup, hk, hk', ih]

theorem map_fst_aset_of_mem {κ ν : Type} [DecidableEq κ] {l : List (κ × ν)} {k : κ}
    (v : ν) (h : k ∈ l.map Prod.fst) : (aset l k v).map Prod.fst = l.map Prod.fst := by
  induction l with
  | nil => simp at h
  | cons p ps ih =>
    obtain ⟨k0, v0⟩ := p
    by_cases hk : k = k0
    · simp [aset, hk]
    · simp only [List.map_cons, List.mem_cons] at h
      rcases h with h | h
      · exact absurd h hk
      · simp [aset, hk, ih h]

theorem alookup_aerase_ne {κ ν : Type} [DecidableEq κ] (l : List (κ × ν)) {k k' : κ}
    (h : k' ≠ k) : alookup (aerase l k) k' = alookup l k' := by
  induction l with
  | nil => rfl
  | cons p ps ih =>
    obtain ⟨k0, v0⟩ := p
    by_cases hk : k = k0
    · subst hk; simp [aerase, alookup, h]
    · by_cases hk' : k' = k0 <;> simp [aerase, alookup, hk, hk', ih]

theorem map_fst_aerase {κ ν : Type} [DecidableEq κ] (l : List (κ × ν)) (k : κ) :
    (aerase l k).map Prod.fst = (l.map Prod.fst).erase k := by
  induction l with
  | nil => rfl
  | cons p ps ih =>
    obtain ⟨k0, v0⟩ := p
    by_cases hk : k = k0
    · subst hk; simp [aerase, List.erase_cons_head]
    · have : (k0 == k) = false := by
        simp [beq_iff_eq]; exact fun hh => hk hh.symm
      simp [aerase, hk, List.erase_cons, this, ih]

theorem nodup_map_fst_aset {κ ν : Type} [DecidableEq κ] {l : List (κ × ν)} (k : κ)
    (v : ν) (hnd : (l.map Prod.fst).Nodup) : ((aset l k v).map Prod.fst).Nodup := by
  by_cases h : k ∈ l.map Prod.fst
  · rw [map_fst_aset_of_mem v h]; exact hnd
  · rw [aset_of_not_mem v h]
    simp only [List.map_append, List.map_cons, List.map_nil]
    exact List.Nodup.append hnd (List.nodup_singleton k)
      (by simpa [List.disjoint_singleton] using h)

/-! ## The table scan inside `decode` -/

/-- The entry scan leaves the state unchanged when the buffer matches no entry
and fits within `mx`. -/
theorem innerScan_keep (mx : Nat) (cl : List (Char × Bits)) (st : List Char × Bits)
    (hnm : ∀ e ∈ cl, st.2 ≠ e.2) (hlen : st.2.length ≤ mx) :
    cl.foldl
      (fun s p =>
        if s.2 = p.2 then (s.1 ++ [p.1], [])
        else if s.2.length > mx then (s.1 ++ ['?'], [])
        else s) st = st := by
  induction cl with
  | nil => rfl
  | cons e cl ih =>
    simp only [List.foldl_cons]
    rw [if_neg (hnm e (List.mem_cons_self _ _)), if_neg (by omega)]
    exact ih fun e he => hnm e (List.mem_cons_of_mem _ he)

/-- The entry scan on a non-empty table with an over-long unmatched buffer
emits `'?'` once and resets the buffer. -/
theorem innerScan_overflow (mx : Nat) (cl : List (Char × Bits)) (st : List Char × Bits)
    (hne : cl ≠ []) (hnm : ∀ e ∈ cl, st.2 ≠ e.2) (hval : ∀ e ∈ cl, e.2 ≠ [])
    (hlen : mx < st.2.length) :
    cl.foldl
      (fun s p =>
        if s.2 = p.2 then (s.1 ++ [p.1], [])
        else if s.2.length > mx then (s.1 ++ ['?'], [])
        else s) st = (st.1 ++ ['?'], []) := by
  cases cl with
  | nil => cases hne rfl
  | cons e cl =>
    simp only [List.foldl_cons]
    rw [if_neg (hnm e (List.mem_cons_self _ _)), if_pos (by omega)]
    exact innerScan_keep mx cl _
      (fun e he => Ne.symm (hval e (List.mem_cons_of_mem _ he))) (by simp)

/-- The entry scan on a buffer equal to the code of `c` (and of no other
character, all codes non-empty) emits `c` and resets the buffer. -/
theorem innerScan_match (mx : Nat) (cl : List (Char × Bits)) (res : List Char)
    (run : Bits) (c : Char) (hmem : (c, run) ∈ cl)
    (huniq : ∀ e ∈ cl, e.2 = run → e = (c, run))
    (hval : ∀ e ∈ cl, e.2 ≠ []) (hlen : run.length ≤ mx) :
    cl.foldl
      (fun s p =>
        if s.2 = p.2 then (s.1 ++ [p.1], [])
        else if s.2.length > mx then (s.1 ++ ['?'], [])
        else s) (res, run) = (res ++ [c], []) := by
  induction cl generalizing res with
  | nil => cases hmem
  | cons e cl ih =>
    by_cases he : e.2 = run
    · have heq : e = (c, run) := huniq e (List.mem_cons_self _ _) he
      subst heq
      simp only [List.foldl_cons, if_pos rfl]
      exact innerScan_keep mx cl _
        (fun e he => Ne.symm (hval e (List.mem_cons_of_mem _ he))) (by simp)
    · have hmem' : (c, run) ∈ cl := by
        rcases List.mem_cons.1 hmem with heq | h
        · exact absurd (by rw [← heq]) he
        · exact h
      simp only [List.foldl_cons]
      rw [if_neg (fun hh : run = e.2 => he hh.symm), if_neg (by omega)]
      exact ih res hmem' (fun e h1 h2 => huniq e (List.mem_cons_of_mem _ h1) h2)
        (fun e h1 => hval e (List.mem_cons_of_mem _ h1))

theorem decodeStep_keep (code : List (Char × Bits)) (mx : Nat) (res : List Char)
    (run : Bits) (b : Bool) (hnm : ∀ e ∈ code, run ++ [b] ≠ e.2)
    (hlen : (run ++ [b]).length ≤ mx) :
    decodeStep code mx (res, run) b = (res, run ++ [b]) :=
  innerScan_keep mx code (res, run ++ [b]) hnm hlen

theorem decodeStep_overflow (code : List (Char × Bits)) (mx : Nat) (res : List Char)
    (run : Bits) (b : Bool) (hne : code ≠ []) (hnm : ∀ e ∈ code, run ++ [b] ≠ e.2)
    (hval : ∀ e ∈ code, e.2 ≠ []) (hlen : mx < (run ++ [b]).length) :
    decodeStep code mx (res, run) b = (res ++ ['?'], []) :=
  innerScan_overflow mx code (res, run ++ [b]) hne hnm hval hlen

theorem decodeStep_match (code : List (Char × Bits)) (mx : Nat) (res : List Char)
    (run : Bits) (b : Bool) (c : Char) (hmem : (c, run ++ [b]) ∈ code)
    (huniq : ∀ e ∈ code, e.2 = run ++ [b] → e = (c, run ++ [b]))
    (hval : ∀ e ∈ code, e.2 ≠ []) (hlen : (run ++ [b]).length ≤ mx) :
    decodeStep code mx (res, run) b = (res ++ [c], []) :=
  innerScan_match mx code res (run ++ [b]) c hmem huniq hval hlen

theorem decodeRun_append (bits u : Bits) (code : List (Char × Bits)) :
    decodeRun (bits ++ u) code
      = u.foldl (decodeStep code (maxCodeLen code)) (decodeRun bits code) := by
  simp [decodeRun, List.foldl_append]

/-- Feeding bits whose every non-empty accumulated buffer matches nothing and
fits within `mx` just grows the buffer and emits nothing. -/
theorem foldl_decodeStep_keep (code : List (Char × Bits)) (mx : Nat) :
    ∀ (u run : Bits) (res : List Char),
      (∀ p : Bits, p ≠ [] → p <+: (run ++ u) →
        (∀ e ∈ code, p ≠ e.2) ∧ p.length ≤ mx) →
      u.foldl (decodeStep code mx) (res, run) = (res, run ++ u)
  | [], run, res, _ => by simp
  | b :: u, run, res, h => by
    have h1 := h (run ++ [b]) (by simp)
      ⟨u, by simp⟩
    simp only [List.foldl_cons]
    rw [decodeStep_keep code mx res run b h1.1 h1.2]
    have h2 := foldl_decodeStep_keep code mx u (run ++ [b]) res
      (by intro p hp hpre; exact h p hp (by simpa using hpre))
    rw [h2]
    simp

/-- Feeding a stream none of whose contiguous fragments matches any entry to a
non-empty table emits exactly one `'?'` for every `mx + 1` consumed bits. -/
theorem foldl_decodeStep_garbage (code : List (Char × Bits)) (mx : Nat)
    (hne : code ≠ []) :
    ∀ (bits run : Bits) (res : List Char),
      run.length ≤ mx →
      (∀ p : Bits, p <:+: (run ++ bits) → ∀ e ∈ code, p ≠ e.2) →
      (bits.foldl (decodeStep code mx) (res, run)).1
        = res ++ List.replicate ((run.length + bits.length) / (mx + 1)) '?'
  | [], run, res, hlen, _ => by
    have hz : (run.length + ([] : Bits).length) / (mx + 1) = 0 :=
      Nat.div_eq_of_lt (by simp; omega)
    simp only [hz]
    simp
  | b :: bs, run, res, hlen, h => by
    have hval : ∀ e ∈ code, e.2 ≠ [] := by
      intro e he
      exact fun hc => h [] ⟨[], run ++ (b :: bs), by simp⟩ e he hc.symm
    have hnm : ∀ e ∈ code, run ++ [b] ≠ e.2 := by
      intro e he
      exact h (run ++ [b]) ⟨[], bs, by simp⟩ e he
    by_cases hcase : run.length = mx
    · -- the appended bit overflows the buffer: one '?' is emitted
      simp only [List.foldl_cons]
      rw [decodeStep_overflow code mx res run b hne hnm hval (by simp; omega)]
      rw [foldl_decodeStep_garbage code mx hne bs [] (res ++ ['?']) (by simp)
        (by
          intro p hpre e he
          refine h p ?_ e he
          obtain ⟨s, t, hst⟩ := hpre
          simp only [List.nil_append, List.append_assoc] at hst
          exact ⟨run ++ b :: s, t, by
            simp only [List.append_assoc, List.cons_append]
            rw [hst]⟩)]
      have harith : (run.length + (b :: bs).length) / (mx + 1)
          = bs.length / (mx + 1) + 1 := by
        rw [show run.length + (b :: bs).length = bs.length + (mx + 1) by
          simp [hcase]; omega]
        exact Nat.add_div_right _ (Nat.succ_pos mx)
      rw [harith]
      simp [List.replicate_succ]
    · -- the buffer still fits: it just grows
      simp only [List.foldl_cons]
      rw [decodeStep_keep code mx res run b hnm (by simp; omega)]
      rw [foldl_decodeStep_garbage code mx hne bs (run ++ [b]) res (by simp; omega)
        (by intro p hpre e he; exact h p (by simpa using hpre) e he)]
      have harith : run.length + (b :: bs).length
          = (run ++ [b]).length + bs.length := by simp; omega
      rw [harith]

/-! ## Single-distinct-symbol corpora (C3) -/

theorem mkFrequencies_const (text : List Char) (c : Char) (hne : text ≠ [])
    (hall : ∀ x ∈ text, x = c) : mkFrequencies text = [([c], text.count c)] := by
  have congr_fold : ∀ (l : List Char) (freqs : List (List Char × Nat)),
      (∀ x ∈ l, x = c) → (alookup freqs [c]).isSome →
      l.foldl
        (fun freqs c =>
          if (alookup freqs [c]).isSome then freqs
          else aset freqs [c] (text.count c)) freqs = freqs := by
    intro l
    induction l with
    | nil => intro freqs _ _; rfl
    | cons x l ih =>
      intro freqs hl hs
      have hx : x = c := hl x (List.mem_cons_self _ _)
      subst hx
      simp only [List.foldl_cons, if_pos hs]
      exact ih freqs (fun y hy => hl y (List.mem_cons_of_mem _ hy)) hs
  cases text with
  | nil => cases hne rfl
  | cons x rest =>
    have hx : x = c := hall x (List.mem_cons_self _ _)
    subst hx
    unfold mkFrequencies
    simp only [List.foldl_cons, alookup, Option.isSome_none, Bool.false_eq_true,
      if_false, aset]
    exact congr_fold rest [([x], (x :: rest).count x)]
      (fun y hy => hall y (List.mem_cons_of_mem _ hy)) (by simp [alookup])

/-- C3 (amended): on a non-empty corpus with exactly one distinct symbol,
`generateHuffman` returns the empty code table (the merge loop never runs, so
the symbol receives no code at all) and an average of `0.0` bits per symbol,
not the table `{c: "0"}` with average `1.0` that the specification demands. -/
theorem C3_single_symbol_amended (text : List Char) (c : Char) (hne : text ≠ [])
    (hall : ∀ x ∈ text, x = c) : generateHuffman text = some ([], 0) := by
  have hb := mkFrequencies_const text c hne hall
  have hlen : text.length ≠ 0 := fun h => hne (List.length_eq_zero.1 h)
  simp [generateHuffman, hb, huffLoop, sortedDescBy, insertDescBy, hlen]

/-- C3 counterexample: on the corpus `"aaaa"` the source returns the empty
table and average `0.0`, not `{a: "0"}` with average `1.0` as the claim
states. -/
theorem C3_single_symbol_counterexample :
    generateHuffman ['a', 'a', 'a', 'a'] = some ([], 0) ∧
    generateHuffman ['a', 'a', 'a', 'a'] ≠ some ([('a', [false])], 1) := by
  have h1 : generateHuffman ['a', 'a', 'a', 'a']
      = some ([], (((0 : Nat) : ℚ)) / (((4 : Nat) : ℚ))) := rfl
  rw [h1]
  norm_num

/-- Witness for C3 (amended) at the corpus `"aaaa"`. -/
theorem C3_single_symbol_witness :
    (['a', 'a', 'a', 'a'] : List Char) ≠ [] ∧
    generateHuffman ['a', 'a', 'a', 'a'] = some ([], 0) :=
  ⟨by decide, C3_single_symbol_amended ['a', 'a', 'a', 'a'] 'a' (by decide) (by decide)⟩

/-! ## Trailing residue is dropped silently (C4) -/

/-- C4 (amended): a trailing bit fragment that matches no table entry and stays
within the longest code length is silently discarded by `decode`: the output is
exactly the output for the stream without the fragment — no error is raised and
no trailing unknown-marker is emitted for the residue. -/
theorem C4_trailing_residue_amended (code : List (Char × Bits)) (bits u : Bits)
    (hrun : (decodeRun bits code).2 = [])
    (hu : ∀ p ∈ u.inits, p ≠ [] →
      (∀ e ∈ code, p ≠ e.2) ∧ p.length ≤ maxCodeLen code) :
    decode (bits ++ u) code = decode bits code := by
  have key := foldl_decodeStep_keep code (maxCodeLen code) u [] (decodeRun bits code).1
    (by
      intro p hp hpre
      exact hu p ((List.mem_inits p u).2 (by simpa using hpre)) hp)
  unfold decode
  rw [decodeRun_append bits u code,
    show decodeRun bits code = ((decodeRun bits code).1, []) from by rw [← hrun],
    key]

/-- C4 counterexample: decoding the single bit `0` against the table
`{a: "00"}` ends with the non-empty unmatched buffer `0`, and `decode` returns
the empty output — the residue is silently dropped, with no error and no
unknown-marker. -/
theorem C4_trailing_residue_counterexample :
    decodeRun [false] [('a', [false, false])] = ([], [false]) ∧
    ([false] : Bits) ≠ [] ∧
    (∀ e ∈ [('a', ([false, false] : Bits))], [false] ≠ e.2) ∧
    decode [false] [('a', [false, false])] = [] := by decide

/-- Witness for C4 (amended): appending the undecodable fragment `0` to the
empty stream leaves the decoded output unchanged. -/
theorem C4_trailing_residue_witness :
    (decodeRun [] [('a', [false, false])]).2 = [] ∧
    decode ([] ++ [false]) [('a', [false, false])] = decode [] [('a', [false, false])] :=
  ⟨by decide, C4_trailing_residue_amended [('a', [false, false])] [] [false]
    (by decide) (by decide)⟩

/-! ## Garbage decode (C5) -/

/-- C5 (amended): decoding a bit sequence none of whose contiguous fragments
matches any entry of a non-empty table produces unknown-markers only and runs
to the end of the input without aborting — but it emits one marker for every
`maxCodeLen + 1` consumed bits (with the final partial window dropped), not
one marker per maximal non-matching run as the claim states. -/
theorem C5_garbage_decode_amended (code : List (Char × Bits)) (bits : Bits)
    (hne : code ≠ []) (hnm : ∀ e ∈ code, ¬ e.2 <:+: bits)
    (hlong : maxCodeLen code < bits.length) :
    decode bits code = List.replicate (bits.length / (maxCodeLen code + 1)) '?' := by
  have h := foldl_decodeStep_garbage code (maxCodeLen code) hne bits [] []
    (by simp)
    (by
      intro p hpre e he heq
      exact hnm e he (heq ▸ (by simpa using hpre)))
  simpa using h

/-- C5 counterexample: the bits `1111` against the table `{a: "0"}` form a
single maximal non-matching run, yet `decode` emits two unknown-markers (one
per `maxCodeLen + 1 = 2` bits), not one. -/
theorem C5_garbage_decode_counterexample :
    decode [true, true, true, true] [('a', [false])] = ['?', '?'] ∧
    (∀ e ∈ [('a', ([false] : Bits))], ¬ e.2 <:+: ([true, true, true, true] : Bits)) ∧
    (['?', '?'] : List Char) ≠ ['?'] := by decide

/-- Witness for C5 (amended) at bits `111` against the table `{a: "0"}`. -/
theorem C5_garbage_decode_witness :
    ([('a', ([false] : Bits))] : List (Char × Bits)) ≠ [] ∧
    decode [true, true, true] [('a', [false])]
      = List.replicate (3 / (maxCodeLen [('a', [false])] + 1)) '?' :=
  ⟨by decide, C5_garbage_decode_amended [('a', [false])] [true, true, true]
    (by decide) (by decide) (by decide)⟩

/-! ## Encode: concatenation and failure on unknown symbols (C6) -/

/-- `encode` fails exactly when a symbol is missing, and on success returns the
concatenated code words (general lemma behind C6, reused for the round trip). -/
theorem encode_spec (text : List Char) (code : List (Char × Bits)) :
    (encode text code = none ↔ ∃ c ∈ text, alookup code c = none) ∧
    ((∀ c ∈ text, alookup code c ≠ none) →
      encode text code = some (codeConcat code text)) := by
  induction text with
  | nil =>
    constructor
    · simp [encode]
    · intro _; simp [encode, codeConcat]
  | cons c cs ih =>
    cases hc : alookup code c with
    | none =>
      refine ⟨⟨fun _ => ⟨c, List.mem_cons_self _ _, hc⟩, fun _ => ?_⟩, fun hall => ?_⟩
      · simp [encode, hc]
      · exact absurd hc (hall c (List.mem_cons_self _ _))
    | some v =>
      cases he : encode cs code with
      | none =>
        obtain ⟨d, hd, hdn⟩ := ih.1.1 he
        refine ⟨⟨fun _ => ⟨d, List.mem_cons_of_mem _ hd, hdn⟩, fun _ => ?_⟩,
          fun hall => ?_⟩
        · simp [encode, hc, he]
        · have hcs := ih.2 fun d hd => hall d (List.mem_cons_of_mem _ hd)
          rw [he] at hcs
          cases hcs
      | some rest =>
        refine ⟨⟨fun hnone => ?_, fun hex => ?_⟩, fun hall => ?_⟩
        · simp [encode, hc, he] at hnone
        · obtain ⟨d, hd, hdn⟩ := hex
          rcases List.mem_cons.1 hd with rfl | hd'
          · rw [hc] at hdn; cases hdn
          · have : encode cs code = none := ih.1.2 ⟨d, hd', hdn⟩
            rw [he] at this; cases this
        · have hcs := ih.2 fun d hd => hall d (List.mem_cons_of_mem _ hd)
          rw [he] at hcs
          simp only [encode, hc, he, codeConcat, hc, Option.getD_some]
          rw [Option.some.injEq] at hcs ⊢
          rw [← hcs]

/-- C6: `encode` fails (raises `KeyError`, embedded as `none`) exactly when
some symbol of the input has no entry in the table — it never skips a symbol
and never returns a partial result — and on success it returns the
concatenation, in input order, of the table entries of the symbols. -/
theorem C6_encode_spec (text : List Char) (code : List (Char × Bits)) :
    (encode text code = none ↔ ∃ c ∈ text, alookup code c = none) ∧
    ((∀ c ∈ text, alookup code c ≠ none) →
      encode text code = some (codeConcat code text)) :=
  encode_spec text code

/-- Witness for C6 at a present and at a missing symbol. -/
theorem C6_encode_spec_witness :
    encode ['z'] [('a', [false])] = none ∧
    encode ['a', 'b'] [('a', [false]), ('b', [true])] = some [false, true] := by
  constructor
  · exact (C6_encode_spec ['z'] [('a', [false])]).1.mpr ⟨'z', by decide, by decide⟩
  · exact (C6_encode_spec ['a', 'b'] [('a', [false]), ('b', [true])]).2 (by decide)

/-! ## Binary representations (for C8 and C9) -/

theorem natBitsAux_zero_eq : ∀ fuel, natBitsAux fuel 0 = [] := by
  intro fuel; cases fuel <;> rfl

theorem natBitsAux_lt (fuel : Nat) :
    ∀ n, n ≤ fuel → n < 2 ^ (natBitsAux fuel n).length := by
  induction fuel with
  | zero =>
    intro n hn
    have : n = 0 := by omega
    subst this
    simp [natBitsAux]
  | succ f ih =>
    intro n hn
    cases n with
    | zero => simp [natBitsAux]
    | succ m =>
      have hdiv : (m + 1) / 2 ≤ f := by omega
      have hlt := ih ((m + 1) / 2) hdiv
      simp only [natBitsAux, List.length_append, List.length_cons, List.length_nil]
      rw [pow_succ]
      omega

theorem natBitsAux_length_le (fuel : Nat) :
    ∀ n m, n ≤ fuel → 0 < n → n < 2 ^ m → (natBitsAux fuel n).length ≤ m := by
  induction fuel with
  | zero => intro n m hn h0 _; exact absurd h0 (by omega)
  | succ f ih =>
    intro n m hn h0 hm
    cases n with
    | zero => cases h0
    | succ k =>
      cases m with
      | zero => exact absurd hm (by omega)
      | succ m' =>
        by_cases hk : k = 0
        · subst hk
          simp [natBitsAux, natBitsAux_zero_eq]
        · have hdiv : (k + 1) / 2 ≤ f := by omega
          have h0' : 0 < (k + 1) / 2 := by omega
          have hm' : (k + 1) / 2 < 2 ^ m' := by
            rw [pow_succ] at hm; omega
          have := ih ((k + 1) / 2) m' hdiv h0' hm'
          simp only [natBitsAux, List.length_append, List.length_cons, List.length_nil]
          omega

theorem bitsToNat_append_bit (bs : Bits) (b : Bool) :
    bitsToNat (bs ++ [b]) = 2 * bitsToNat bs + cond b 1 0 := by
  simp [bitsToNat, List.foldl_append]

theorem natBitsAux_roundtrip (fuel : Nat) :
    ∀ n, n ≤ fuel → bitsToNat (natBitsAux fuel n) = n := by
  induction fuel with
  | zero =>
    intro n hn
    have : n = 0 := by omega
    subst this
    simp [natBitsAux, bitsToNat]
  | succ f ih =>
    intro n hn
    cases n with
    | zero => simp [natBitsAux, bitsToNat]
    | succ m =>
      have hdiv : (m + 1) / 2 ≤ f := by omega
      simp only [natBitsAux, bitsToNat_append_bit, ih ((m + 1) / 2) hdiv]
      rcases Nat.mod_two_eq_zero_or_one (m + 1) with h2 | h2 <;>
        · rw [h2]
          simp
          omega

theorem bitsToNat_replicate_false (k : Nat) (bs : Bits) :
    bitsToNat (List.replicate k false ++ bs) = bitsToNat bs := by
  induction k with
  | zero => simp
  | succ k ih =>
    simpa [bitsToNat, List.replicate_succ] using ih

theorem bitsToNat_natToBits (n : Nat) : bitsToNat (natToBits n) = n := by
  by_cases h : n = 0
  · subst h; simp [natToBits, bitsToNat]
  · simp only [natToBits, if_neg h]
    exact natBitsAux_roundtrip n n le_rfl

theorem bitsToNat_zfill (w : Nat) (bs : Bits) :
    bitsToNat (zfill w bs) = bitsToNat bs :=
  bitsToNat_replicate_false _ bs

theorem zfill_length (w : Nat) (bs : Bits) :
    (zfill w bs).length = max w bs.length := by
  simp [zfill]
  omega

theorem natToBits_length_le (n m : Nat) (h1 : 1 ≤ m) (h : n < 2 ^ m) :
    (natToBits n).length ≤ m := by
  by_cases h0 : n = 0
  · subst h0; simpa [natToBits] using h1
  · simp only [natToBits, if_neg h0]
    exact natBitsAux_length_le n n m le_rfl (by omega) h

theorem natToBits_length_ge (n m : Nat) (h : 2 ^ m ≤ n) :
    m < (natToBits n).length := by
  have hn0 : n ≠ 0 := by
    have : 0 < 2 ^ m := Nat.pos_pow_of_pos m (by omega)
    omega
  simp only [natToBits, if_neg hn0]
  have hlt := natBitsAux_lt n n le_rfl
  by_contra hle
  push_neg at hle
  have : 2 ^ (natBitsAux n n).length ≤ 2 ^ m :=
    Nat.pow_le_pow_right (by omega) hle
  omega

/-! ## `uniqueChars` -/

theorem uniqueChars_go (l : List Char) :
    ∀ acc : List Char, acc.Nodup →
      (l.foldl (fun acc c => if c ∈ acc then acc else acc ++ [c]) acc).Nodup ∧
      (∀ c, c ∈ l.foldl (fun acc c => if c ∈ acc then acc else acc ++ [c]) acc ↔
        c ∈ acc ∨ c ∈ l) := by
  induction l with
  | nil => intro acc hnd; simpa using hnd
  | cons x l ih =>
    intro acc hnd
    by_cases hx : x ∈ acc
    · simp only [List.foldl_cons, if_pos hx]
      obtain ⟨h1, h2⟩ := ih acc hnd
      refine ⟨h1, fun c => ?_⟩
      rw [h2 c]
      constructor
      · rintro (h | h)
        · exact Or.inl h
        · exact Or.inr (List.mem_cons_of_mem _ h)
      · rintro (h | h)
        · exact Or.inl h
        · rcases List.mem_cons.1 h with rfl | h
          · exact Or.inl hx
          · exact Or.inr h
    · simp only [List.foldl_cons, if_neg hx]
      have hnd' : (acc ++ [x]).Nodup :=
        List.Nodup.append hnd (List.nodup_singleton x)
          (by simpa [List.disjoint_singleton] using hx)
      obtain ⟨h1, h2⟩ := ih (acc ++ [x]) hnd'
      refine ⟨h1, fun c => ?_⟩
      rw [h2 c]
      simp only [List.mem_append, List.mem_singleton, List.mem_cons]
      tauto

theorem uniqueChars_nodup (text : List Char) : (uniqueChars text).Nodup :=
  (uniqueChars_go text [] List.nodup_nil).1

theorem mem_uniqueChars (text : List Char) (c : Char) :
    c ∈ uniqueChars text ↔ c ∈ text := by
  rw [uniqueChars, (uniqueChars_go text [] List.nodup_nil).2 c]
  simp

theorem uniqueChars_eq_nil (text : List Char) : uniqueChars text = [] ↔ text = [] := by
  constructor
  · intro h
    cases text with
    | nil => rfl
    | cons c cs =>
      have : c ∈ uniqueChars (c :: cs) :=
        (mem_uniqueChars _ c).2 (List.mem_cons_self _ _)
      rw [h] at this
      cases this
  · rintro rfl; rfl

/-! ## The fixed-width tables (C8, C9) -/

theorem foldl_aset_fresh (f : Char → Bits) (chars : List Char) :
    ∀ acc : List (Char × Bits), chars.Nodup →
      (∀ c ∈ chars, c ∉ acc.map Prod.fst) →
      chars.foldl (fun cd c => aset cd c (f c)) acc
        = acc ++ chars.map (fun c => (c, f c)) := by
  induction chars with
  | nil => intro acc _ _; simp
  | cons c cs ih =>
    intro acc hnd hfresh
    simp only [List.foldl_cons]
    rw [aset_of_not_mem (f c) (hfresh c (List.mem_cons_self _ _))]
    rw [ih (acc ++ [(c, f c)]) (List.Nodup.of_cons hnd)
      (by
        intro d hd
        simp only [List.map_append, List.map_cons, List.map_nil, List.mem_append,
          List.mem_singleton, not_or]
        refine ⟨hfresh d (List.mem_cons_of_mem _ hd), fun hdc => ?_⟩
        rw [hdc] at hd
        exact (List.nodup_cons.1 hnd).1 hd)]
    simp

theorem binTable_go (w : Nat) (chars : List Char) :
    ∀ (acc : List (Char × Bits)) (i : Nat), chars.Nodup →
      (∀ c ∈ chars, c ∉ acc.map Prod.fst) →
      (chars.foldl
        (fun (st : List (Char × Bits) × Nat) c =>
          (aset st.1 c (zfill w (natToBits st.2)), st.2 + 1)) (acc, i)).1
        = acc ++ (List.zip chars (List.range' i chars.length)).map
            (fun p => (p.1, zfill w (natToBits p.2))) := by
  induction chars with
  | nil => intro acc i _ _; simp
  | cons c cs ih =>
    intro acc i hnd hfresh
    simp only [List.foldl_cons]
    rw [show aset acc c (zfill w (natToBits i)) = acc ++ [(c, zfill w (natToBits i))]
      from aset_of_not_mem _ (hfresh c (List.mem_cons_self _ _))]
    rw [ih (acc ++ [(c, zfill w (natToBits i))]) (i + 1) (List.Nodup.of_cons hnd)
      (by
        intro d hd
        simp only [List.map_append, List.map_cons, List.map_nil, List.mem_append,
          List.mem_singleton, not_or]
        refine ⟨hfresh d (List.mem_cons_of_mem _ hd), fun hdc => ?_⟩
        rw [hdc] at hd
        exact (List.nodup_cons.1 hnd).1 hd)]
    simp [List.range'_succ]

theorem binTable_eq (w : Nat) (chars : List Char) (hnd : chars.Nodup) :
    binTable w chars
      = (List.zip chars (List.range' 0 chars.length)).map
          (fun p => (p.1, zfill w (natToBits p.2))) := by
  have h := binTable_go w chars [] 0 hnd (by simp)
  simpa [binTable] using h

theorem le_pow_ceilLog2 (n : Nat) (h : 1 ≤ n) : n ≤ 2 ^ ceilLog2 n := by
  by_cases h1 : n ≤ 1
  · have : n = 1 := by omega
    subst this
    simp [ceilLog2]
  · have h2 : 2 ≤ n := by omega
    have hne : n - 1 ≠ 0 := by omega
    simp only [ceilLog2, if_neg h1, natToBits, if_neg hne]
    have := natBitsAux_lt (n - 1) (n - 1) le_rfl
    omega

theorem ceilLog2_le (n m : Nat) (h : n ≤ 2 ^ m) : ceilLog2 n ≤ m := by
  by_cases h1 : n ≤ 1
  · simp [ceilLog2, h1]
  · have h2 : 2 ≤ n := by omega
    have hm : 1 ≤ m := by
      by_contra hm0
      have : m = 0 := by omega
      subst this
      simp at h
      omega
    simp only [ceilLog2, if_neg h1]
    exact natToBits_length_le (n - 1) m hm (by omega)

theorem ceilLog2_eq_clog (n : Nat) : ceilLog2 n = Nat.clog 2 n := by
  by_cases h0 : n = 0
  · subst h0; simp [ceilLog2]
  · have h1 : 1 ≤ n := by omega
    refine le_antisymm ?_ ?_
    · exact ceilLog2_le n _ (Nat.le_pow_clog (by norm_num) n)
    · exact (Nat.le_pow_iff_clog_le (by norm_num)).1 (le_pow_ceilLog2 n h1)

theorem zfill_natToBits_injective (w : Nat) :
    Function.Injective (fun i => zfill w (natToBits i)) := by
  intro a b h
  have := congrArg bitsToNat h
  simpa [bitsToNat_zfill, bitsToNat_natToBits] using this

/-- C8 (amended): on every non-empty corpus with `n` distinct symbols,
`generateBin` assigns each distinct symbol a unique bit string and returns the
width `ceil(log2 n)` — which is `0`, not the claimed minimum of `1`, when
`n = 1` (each assigned string still has length `max (ceil(log2 n)) 1`, because
`"0".zfill(0)` keeps its single character). -/
theorem C8_fixed_binary__amended (text : List Char) (hne : text ≠ []) :
    ∃ tbl : List (Char × Bits),
      generateBin text = some (tbl, ceilLog2 (uniqueChars text).length) ∧
      tbl.map Prod.fst = uniqueChars text ∧
      (tbl.map Prod.snd).Nodup ∧
      (∀ e ∈ tbl, e.2.length = max (ceilLog2 (uniqueChars text).length) 1) ∧
      ceilLog2 (uniqueChars text).length = Nat.clog 2 (uniqueChars text).length := by
  have hun : uniqueChars text ≠ [] := fun h => hne ((uniqueChars_eq_nil text).1 h)
  have hlen : (uniqueChars text).length ≠ 0 := fun h => hun (List.length_eq_zero.1 h)
  set n := (uniqueChars text).length with hn
  set w := ceilLog2 n with hw
  refine ⟨binTable w (uniqueChars text), ?_, ?_, ?_, ?_, ceilLog2_eq_clog n⟩
  · simp only [generateBin, if_neg hlen]
  · rw [binTable_eq w _ (uniqueChars_nodup text)]
    rw [List.map_map]
    have hzip : ((List.zip (uniqueChars text) (List.range' 0 n)).map
        (Prod.fst ∘ fun p => (p.1, zfill w (natToBits p.2))))
        = (List.zip (uniqueChars text) (List.range' 0 n)).map Prod.fst := rfl
    rw [hzip]
    exact List.map_fst_zip _ _ (by simp)
  · rw [binTable_eq w _ (uniqueChars_nodup text)]
    rw [List.map_map]
    have hzip : ((List.zip (uniqueChars text) (List.range' 0 n)).map
        (Prod.snd ∘ fun p => (p.1, zfill w (natToBits p.2))))
        = ((List.zip (uniqueChars text) (List.range' 0 n)).map Prod.snd).map
            (fun i => zfill w (natToBits i)) := by
      rw [List.map_map]; rfl
    rw [hzip, List.map_snd_zip _ _ (by simp)]
    exact List.Nodup.map (zfill_natToBits_injective w) (List.nodup_range' 0 n)
  · intro e he
    rw [binTable_eq w _ (uniqueChars_nodup text)] at he
    obtain ⟨⟨c, i⟩, hmem, rfl⟩ := List.mem_map.1 he
    have hiz : i ∈ List.range' 0 n := (List.of_mem_zip hmem).2
    have hi : i < n := by
      have := List.mem_range'_1.1 hiz
      omega
    show (zfill w (natToBits i)).length = max w 1
    rw [zfill_length]
    by_cases h1 : n = 1
    · have hi0 : i = 0 := by omega
      subst hi0
      simp [natToBits]
    · have h2 : 2 ≤ n := by omega
      have hw1 : 1 ≤ w := by
        rw [hw]
        by_contra hz
        have hz0 : ceilLog2 n = 0 := by omega
        have := le_pow_ceilLog2 n (by omega)
        rw [hz0] at this
        simp at this
        omega
      have hle : (natToBits i).length ≤ w :=
        natToBits_length_le i w hw1 (lt_of_lt_of_le hi (le_pow_ceilLog2 n (by omega)))
      omega

/-- C8 counterexample: on the corpus `"aa"` (one distinct symbol) the source
returns bits-per-symbol `0`, not the claimed minimum width of `1`. -/
theorem C8_fixed_binary_counterexample :
    generateBin ['a', 'a'] = some ([('a', [false])], 0) ∧
    ¬ (∃ tbl w, generateBin ['a', 'a'] = some (tbl, w) ∧ 1 ≤ w) := by
  refine ⟨by decide, ?_⟩
  rintro ⟨tbl, w, hw, h1⟩
  rw [show generateBin ['a', 'a'] = some ([('a', [false])], 0) from by decide] at hw
  simp only [Option.some.injEq, Prod.mk.injEq] at hw
  omega

/-- Witness for C8 (amended) at the corpus `"abc"`. -/
theorem C8_fixed_binary_witness :
    (['a', 'b', 'c'] : List Char) ≠ [] ∧
    ∃ tbl : List (Char × Bits),
      generateBin ['a', 'b', 'c']
        = some (tbl, ceilLog2 (uniqueChars ['a', 'b', 'c']).length) ∧
      tbl.map Prod.fst = uniqueChars ['a', 'b', 'c'] ∧
      (tbl.map Prod.snd).Nodup ∧
      (∀ e ∈ tbl, e.2.length = max (ceilLog2 (uniqueChars ['a', 'b', 'c']).length) 1) ∧
      ceilLog2 (uniqueChars ['a', 'b', 'c']).length
        = Nat.clog 2 (uniqueChars ['a', 'b', 'c']).length :=
  ⟨by decide, C8_fixed_binary__amended ['a', 'b', 'c'] (by decide)⟩

/-- C9 (amended): `generateAscii` maps each distinct symbol to
`bin(ord(char)).zfill(7)` and reports 7 bits per symbol; the code word has
exactly 7 bits when the ordinal is below 128, but for an ordinal of 128 or more
the function neither fails nor truncates: it silently emits a code of 8 or more
bits. -/
theorem C9_ascii__amended (text : List Char) :
    (generateAscii text).2 = 7 ∧
    (generateAscii text).1.map Prod.fst = uniqueChars text ∧
    ∀ e ∈ (generateAscii text).1,
      e.2 = zfill 7 (natToBits e.1.toNat) ∧
      (e.1.toNat < 128 → e.2.length = 7) ∧
      (128 ≤ e.1.toNat → 8 ≤ e.2.length) := by
  have htbl : (generateAscii text).1
      = (uniqueChars text).map (fun c => (c, zfill 7 (natToBits c.toNat))) := by
    have h := foldl_aset_fresh (fun c => zfill 7 (natToBits c.toNat)) (uniqueChars text)
      [] (uniqueChars_nodup text) (by simp)
    simpa [generateAscii] using h
  refine ⟨rfl, ?_, ?_⟩
  · rw [htbl, List.map_map]
    have : (Prod.fst ∘ fun c : Char => (c, zfill 7 (natToBits c.toNat))) = id := rfl
    rw [this, List.map_id]
  · intro e he
    rw [htbl] at he
    obtain ⟨c, _, rfl⟩ := List.mem_map.1 he
    dsimp only
    refine ⟨rfl, fun hlt => ?_, fun hge => ?_⟩
    · rw [zfill_length]
      have : (natToBits c.toNat).length ≤ 7 :=
        natToBits_length_le c.toNat 7 (by norm_num) (by norm_num; omega)
      omega
    · rw [zfill_length]
      have : 7 < (natToBits c.toNat).length :=
        natToBits_length_ge c.toNat 7 (by norm_num; omega)
      omega

/-- C9 counterexample: on the symbol `'é'` (ordinal 233) `generateAscii`
silently produces the 8-bit code `11101001`: no error is raised and nothing is
truncated to 7 bits. -/
theorem C9_ascii_counterexample :
    (generateAscii ['é']).1
      = [('é', [true, true, true, false, true, false, false, true])] ∧
    (∀ e ∈ (generateAscii ['é']).1, e.2.length = 8) ∧ 128 ≤ 'é'.toNat := by decide

/-- Witness for C9 (amended) at the corpus `"A"`. -/
theorem C9_ascii_witness :
    ('A', zfill 7 (natToBits 'A'.toNat)) ∈ (generateAscii ['A']).1 ∧
    ('A'.toNat < 128 → (zfill 7 (natToBits 'A'.toNat)).length = 7) :=
  ⟨by decide, fun h =>
    ((C9_ascii__amended ['A']).2.2 ('A', zfill 7 (natToBits 'A'.toNat)) (by decide)).2.1 h⟩

/-! ## `compressionRate` (C10) -/

/-- C10 (amended): when both code tables are built successfully,
`compressionRate` returns `len(base_encoded) / len(huff_encoded)` whenever both
encodes succeed and the Huffman encoding is non-empty; it fails when the
Huffman encoding is empty (the `ZeroDivisionError`, in particular on empty
text) — but it also fails, contrary to the claim's "exactly", whenever the text
contains a symbol missing from either table (the `KeyError` inside `encode`),
which happens for non-empty texts as well. -/
theorem C10_compression_rate_amended (text generator : List Char) (ty : Char)
    (bc : List (Char × Bits)) (bw : Nat) (hc : List (Char × Bits)) (hq : ℚ)
    (hbase : (if ty = 'A' then some (generateAscii generator) else generateBin generator)
      = some (bc, bw))
    (hhuff : generateHuffman generator = some (hc, hq)) :
    (∀ be he : Bits, encode text bc = some be → encode text hc = some he →
      he ≠ [] →
      compressionRate text generator ty = some ((be.length : ℚ) / (he.length : ℚ))) ∧
    (∀ he : Bits, encode text hc = some he → he = [] →
      compressionRate text generator ty = none) ∧
    ((encode text bc = none ∨ encode text hc = none) →
      compressionRate text generator ty = none) := by
  refine ⟨?_, ?_, ?_⟩
  · intro be he hbe hhe hne
    unfold compressionRate
    rw [hbase, hhuff]
    dsimp only
    rw [hbe, hhe]
    simp [List.length_eq_zero, hne]
  · intro he hhe hnil
    subst hnil
    unfold compressionRate
    rw [hbase, hhuff]
    dsimp only
    rw [hhe]
    cases hbe : encode text bc <;> simp
  · intro h
    unfold compressionRate
    rw [hbase, hhuff]
    dsimp only
    rcases h with h | h
    · rw [h]
    · rw [h]
      cases hbe : encode text bc <;> simp

/-- C10 counterexample: `compressionRate("z", "ab", 'B')` fails (a `KeyError`:
`'z'` has no entry in either table) although the text is non-empty, refuting
"fails exactly when the text is empty". -/
theorem C10_compression_rate_counterexample :
    compressionRate ['z'] ['a', 'b'] 'B' = none ∧ (['z'] : List Char) ≠ [] ∧
    (generateHuffman ['a', 'b']).map Prod.fst = some [('b', [true]), ('a', [false])] ∧
    (generateBin ['a', 'b']).isSome = true := by decide

/-- Witness for C10 (amended): a fully successful ratio computation. -/
theorem C10_compression_rate_witness :
    compressionRate ['a', 'b', 'a'] ['a', 'b'] 'B'
      = some ((([false, true, false] : Bits).length : ℚ)
          / (([false, true, false] : Bits).length : ℚ)) :=
  (C10_compression_rate_amended ['a', 'b', 'a'] ['a', 'b'] 'B'
      [('a', [false]), ('b', [true])] 1 [('b', [true]), ('a', [false])]
      (((2 : Nat) : ℚ) / ((2 : Nat) : ℚ)) (by decide) rfl).1
    [false, true, false] [false, true, false] (by decide) (by decide) (by decide)

/-! ## The sort used by the merge loop -/

theorem insertDescBy_perm (key : List Char → Nat) (x : List Char) :
    ∀ l : List (List Char), (insertDescBy key x l).Perm (x :: l) := by
  intro l
  induction l with
  | nil => exact List.Perm.refl _
  | cons y ys ih =>
    by_cases h : key x ≤ key y
    · simp only [insertDescBy, if_pos h]
      exact (ih.cons y).trans (List.Perm.swap x y ys)
    · simp only [insertDescBy, if_neg h]
      exact List.Perm.refl _

theorem sortedDescBy_perm (key : List Char → Nat) (l : List (List Char)) :
    (sortedDescBy key l).Perm l := by
  have go : ∀ (l acc : List (List Char)),
      (l.foldl (fun acc x => insertDescBy key x acc) acc).Perm (acc ++ l) := by
    intro l
    induction l with
    | nil => intro acc; simp
    | cons x xs ih =>
      intro acc
      have h1 := ih (insertDescBy key x acc)
      have h2 : (insertDescBy key x acc ++ xs).Perm ((x :: acc) ++ xs) :=
        (insertDescBy_perm key x acc).append_right xs
      have h3 : ((x :: acc) ++ xs).Perm (acc ++ x :: xs) := by
        have := (@List.perm_middle _ x acc xs).symm
        simpa using this
      simpa using (h1.trans h2).trans h3
  simpa using go l []

/-! ## The code-prepending pass of the merge loop -/

theorem prependBit_cons (b : Bool) (g : Char) (gs : List Char)
    (code : List (Char × Bits)) :
    prependBit b (g :: gs) code = prependBit b gs (updOne b code g) := rfl

theorem alookup_updOne_self (b : Bool) (code : List (Char × Bits)) (ch : Char) :
    alookup (updOne b code ch) ch = some (b :: codeWord code ch) := by
  cases halk : alookup code ch <;>
    simp [updOne, halk, codeWord, alookup_aset_self]

theorem alookup_updOne_ne (b : Bool) (code : List (Char × Bits)) {c ch : Char}
    (hne : c ≠ ch) : alookup (updOne b code ch) c = alookup code c := by
  cases halk : alookup code ch <;>
    simp [updOne, halk, alookup_aset_ne _ _ hne]

theorem updOne_nodup (b : Bool) (code : List (Char × Bits)) (ch : Char)
    (hnd : (code.map Prod.fst).Nodup) : ((updOne b code ch).map Prod.fst).Nodup := by
  cases halk : alookup code ch <;>
    · simp only [updOne, halk]
      exact nodup_map_fst_aset _ _ hnd

theorem updOne_keys_sub (b : Bool) (code : List (Char × Bits)) (ch : Char) :
    ∀ d ∈ (updOne b code ch).map Prod.fst, d ∈ code.map Prod.fst ∨ d = ch := by
  intro d hd
  by_cases hmem : ch ∈ code.map Prod.fst
  · cases halk : alookup code ch with
    | some curr =>
      simp only [updOne, halk] at hd
      rw [map_fst_aset_of_mem _ hmem] at hd
      exact Or.inl hd
    | none =>
      exact absurd ((alookup_eq_none code ch).1 halk) (by simp [hmem])
  · cases halk : alookup code ch with
    | some curr =>
      exact absurd (mem_of_alookup_eq_some halk)
        (fun hm => hmem (List.mem_map_of_mem Prod.fst hm))
    | none =>
      simp only [updOne, halk] at hd
      rw [aset_of_not_mem _ hmem] at hd
      simp only [List.map_append, List.map_cons, List.map_nil, List.mem_append,
        List.mem_singleton] at hd
      exact hd

theorem prependBit_lookup_not_mem (b : Bool) (group : List Char)
    (code : List (Char × Bits)) (c : Char) (hc : c ∉ group) :
    alookup (prependBit b group code) c = alookup code c := by
  induction group generalizing code with
  | nil => rfl
  | cons g gs ih =>
    have hcg : c ≠ g := fun h => hc (h ▸ List.mem_cons_self _ _)
    have hcgs : c ∉ gs := fun h => hc (List.mem_cons_of_mem _ h)
    rw [prependBit_cons, ih _ hcgs, alookup_updOne_ne b code hcg]

theorem prependBit_lookup_mem (b : Bool) (group : List Char)
    (code : List (Char × Bits)) (hnd : group.Nodup) :
    ∀ c ∈ group, alookup (prependBit b group code) c = some (b :: codeWord code c) := by
  induction group generalizing code with
  | nil => intro c hc; cases hc
  | cons g gs ih =>
    intro c hc
    have hg : g ∉ gs := (List.nodup_cons.1 hnd).1
    rcases List.mem_cons.1 hc with rfl | hcs
    · rw [prependBit_cons, prependBit_lookup_not_mem b gs _ c hg,
        alookup_updOne_self]
    · have hcg : c ≠ g := fun h => hg (h ▸ hcs)
      rw [prependBit_cons, ih _ (List.nodup_cons.1 hnd).2 c hcs]
      have : codeWord (updOne b code g) c = codeWord code c := by
        simp [codeWord, alookup_updOne_ne b code hcg]
      rw [this]

theorem prependBit_nodup (b : Bool) (group : List Char) (code : List (Char × Bits))
    (hnd : (code.map Prod.fst).Nodup) :
    ((prependBit b group code).map Prod.fst).Nodup := by
  induction group generalizing code with
  | nil => exact hnd
  | cons g gs ih =>
    rw [prependBit_cons]
    exact ih _ (updOne_nodup b code g hnd)

theorem prependBit_keys_sub (b : Bool) (group : List Char) (code : List (Char × Bits)) :
    ∀ c ∈ (prependBit b group code).map Prod.fst,
      c ∈ code.map Prod.fst ∨ c ∈ group := by
  induction group generalizing code with
  | nil => intro c hc; exact Or.inl hc
  | cons g gs ih =>
    intro c hc
    rw [prependBit_cons] at hc
    rcases ih _ c hc with h | h
    · rcases updOne_keys_sub b code g c h with h2 | h2
      · exact Or.inl h2
      · exact Or.inr (h2 ▸ List.mem_cons_self _ _)
    · exact Or.inr (List.mem_cons_of_mem _ h)

theorem prependBit_codeWord_mem (b : Bool) (group : List Char)
    (code : List (Char × Bits)) (hnd : group.Nodup) (c : Char) (hc : c ∈ group) :
    codeWord (prependBit b group code) c = b :: codeWord code c := by
  simp [codeWord, prependBit_lookup_mem b group code hnd c hc]

theorem prependBit_codeWord_not_mem (b : Bool) (group : List Char)
    (code : List (Char × Bits)) (c : Char) (hc : c ∉ group) :
    codeWord (prependBit b group code) c = codeWord code c := by
  simp [codeWord, prependBit_lookup_not_mem b group code c hc]

/-! ## The merge-loop invariant (C1, C2) -/

/-- Invariant of the `while` loop of `generateHuffman`: the frequency-dict keys
are disjoint duplicate-free non-empty groups of characters, and within every
group the code words assigned so far are prefix-free, with every character of
an already-merged (length ≥ 2) group carrying a non-empty code. -/
structure HuffInv (freqs : List (List Char × Nat)) (code : List (Char × Bits)) :
    Prop where
  fnodup : (freqs.map Prod.fst).Nodup
  knonempty : ∀ k ∈ freqs.map Prod.fst, k ≠ []
  knodup : ∀ k ∈ freqs.map Prod.fst, List.Nodup k
  kdisj : ∀ k ∈ freqs.map Prod.fst, ∀ k2 ∈ freqs.map Prod.fst, k ≠ k2 →
    ∀ c ∈ k, c ∉ k2
  cnodup : (code.map Prod.fst).Nodup
  cdom : ∀ c ∈ code.map Prod.fst, ∃ k ∈ freqs.map Prod.fst, c ∈ k
  cne : ∀ e ∈ code, e.2 ≠ ([] : Bits)
  ccomplete : ∀ k ∈ freqs.map Prod.fst, 2 ≤ k.length → ∀ c ∈ k,
    ∃ v, alookup code c = some v ∧ v ≠ []
  cpf : ∀ k ∈ freqs.map Prod.fst, ∀ c ∈ k, ∀ c2 ∈ k, c ≠ c2 →
    ¬ codeWord code c <+: codeWord code c2

theorem two_le_length_of_mem {α : Type} (l : List α) (a b : α)
    (ha : a ∈ l) (hb : b ∈ l) (hab : a ≠ b) : 2 ≤ l.length := by
  cases l with
  | nil => cases ha
  | cons x xs =>
    cases xs with
    | nil =>
      simp only [List.mem_singleton] at ha hb
      exact absurd (ha.trans hb.symm) hab
    | cons y ys => simp [List.length_cons]

theorem mem_map_fst_aerase {κ ν : Type} [DecidableEq κ] (l : List (κ × ν)) (k k' : κ)
    (hnd : (l.map Prod.fst).Nodup) :
    k' ∈ (aerase l k).map Prod.fst ↔ k' ∈ l.map Prod.fst ∧ k' ≠ k := by
  induction l with
  | nil => simp [aerase]
  | cons p ps ih =>
    obtain ⟨k0, v0⟩ := p
    simp only [List.map_cons, List.nodup_cons] at hnd
    by_cases hk : k = k0
    · subst hk
      rw [show aerase ((k, v0) :: ps) k = ps from by simp [aerase]]
      constructor
      · intro h
        exact ⟨List.mem_cons_of_mem _ h, fun hk'k => hnd.1 (hk'k ▸ h)⟩
      · rintro ⟨h, hne⟩
        rcases List.mem_cons.1 h with heq | hm
        · exact absurd heq hne
        · exact hm
    · rw [show aerase ((k0, v0) :: ps) k = (k0, v0) :: aerase ps k from by
        simp [aerase, hk]]
      simp only [List.map_cons, List.mem_cons]
      constructor
      · rintro (heq | hm)
        · refine ⟨Or.inl heq, fun hkk => hk ?_⟩
          rw [← hkk]
          exact heq
        · obtain ⟨hm2, hne⟩ := (ih hnd.2).1 hm
          exact ⟨Or.inr hm2, hne⟩
      · rintro ⟨heq | hm, hne⟩
        · exact Or.inl heq
        · exact Or.inr ((ih hnd.2).2 ⟨hm, hne⟩)

theorem aerase_nodup {κ ν : Type} [DecidableEq κ] (l : List (κ × ν)) (k : κ)
    (hnd : (l.map Prod.fst).Nodup) : ((aerase l k).map Prod.fst).Nodup := by
  induction l with
  | nil => simp [aerase]
  | cons p ps ih =>
    obtain ⟨k0, v0⟩ := p
    simp only [List.map_cons, List.nodup_cons] at hnd
    by_cases hk : k = k0
    · subst hk
      rw [show aerase ((k, v0) :: ps) k = ps from by simp [aerase]]
      exact hnd.2
    · rw [show aerase ((k0, v0) :: ps) k = (k0, v0) :: aerase ps k from by
        simp [aerase, hk]]
      simp only [List.map_cons, List.nodup_cons]
      refine ⟨fun hmem => ?_, ih hnd.2⟩
      exact hnd.1 ((mem_map_fst_aerase ps k k0 hnd.2).1 hmem).1

theorem aerase_length {κ ν : Type} [DecidableEq κ] (l : List (κ × ν)) (k : κ)
    (hk : k ∈ l.map Prod.fst) : (aerase l k).length + 1 = l.length := by
  induction l with
  | nil => cases hk
  | cons p ps ih =>
    obtain ⟨k0, v0⟩ := p
    by_cases hkk : k = k0
    · subst hkk
      rw [show aerase ((k, v0) :: ps) k = ps from by simp [aerase]]
      rfl
    · rw [show aerase ((k0, v0) :: ps) k = (k0, v0) :: aerase ps k from by
        simp [aerase, hkk]]
      have hk2 : k ∈ ps.map Prod.fst := by
        rcases List.mem_cons.1 hk with heq | hm
        · exact absurd heq hkk
        · exact hm
      simp only [List.length_cons]
      rw [← ih hk2]

/-- One iteration of the merge loop preserves the invariant, removes exactly
one frequency-dict key, and preserves the partitioned character set.  The
groups `g1` and `g2` are the two popped keys, `n` the merged frequency. -/
theorem huffStep (freqs : List (List Char × Nat)) (code : List (Char × Bits))
    (g1 g2 : List Char) (n : Nat) (hinv : HuffInv freqs code)
    (h1 : g1 ∈ freqs.map Prod.fst) (h2 : g2 ∈ freqs.map Prod.fst) (h12 : g1 ≠ g2) :
    HuffInv (aerase (aerase (aset freqs (g1 ++ g2) n) g1) g2)
      (prependBit false g2 (prependBit true g1 code)) ∧
    (aerase (aerase (aset freqs (g1 ++ g2) n) g1) g2).length + 1 = freqs.length ∧
    (∀ c, (∃ k ∈ (aerase (aerase (aset freqs (g1 ++ g2) n) g1) g2).map Prod.fst, c ∈ k)
      ↔ ∃ k ∈ freqs.map Prod.fst, c ∈ k) := by
  have hg1ne : g1 ≠ [] := hinv.knonempty g1 h1
  have hg2ne : g2 ≠ [] := hinv.knonempty g2 h2
  have hdisj12 : ∀ c ∈ g1, c ∉ g2 := hinv.kdisj g1 h1 g2 h2 h12
  have hmfresh : (g1 ++ g2) ∉ freqs.map Prod.fst := by
    intro hm
    obtain ⟨c, hc⟩ : ∃ c, c ∈ g1 := by
      cases g1 with
      | nil => cases hg1ne rfl
      | cons a l => exact ⟨a, List.mem_cons_self _ _⟩
    by_cases hmg1 : g1 ++ g2 = g1
    · have hlg : g2.length = 0 := by
        have hl := congrArg List.length hmg1
        rw [List.length_append] at hl
        omega
      exact hg2ne (List.length_eq_zero.1 hlg)
    · exact hinv.kdisj (g1 ++ g2) hm g1 h1 hmg1 c (List.mem_append_left _ hc) hc
  have hF1keys : (aset freqs (g1 ++ g2) n).map Prod.fst
      = freqs.map Prod.fst ++ [g1 ++ g2] := by
    rw [aset_of_not_mem _ hmfresh, List.map_append]
    simp
  have hF1nodup : ((aset freqs (g1 ++ g2) n).map Prod.fst).Nodup := by
    rw [hF1keys]
    refine List.Nodup.append hinv.fnodup (List.nodup_singleton _) ?_
    intro k hk
    simp only [List.mem_singleton]
    intro he
    exact hmfresh (he ▸ hk)
  have hg1F1 : g1 ∈ (aset freqs (g1 ++ g2) n).map Prod.fst := by
    rw [hF1keys]
    exact List.mem_append_left _ h1
  have hE1nodup : ((aerase (aset freqs (g1 ++ g2) n) g1).map Prod.fst).Nodup :=
    aerase_nodup _ _ hF1nodup
  have hg2E1 : g2 ∈ (aerase (aset freqs (g1 ++ g2) n) g1).map Prod.fst := by
    rw [mem_map_fst_aerase _ _ _ hF1nodup]
    refine ⟨?_, fun h => h12 h.symm⟩
    rw [hF1keys]
    exact List.mem_append_left _ h2
  have hmg1 : g1 ++ g2 ≠ g1 := by
    intro h
    have hl := congrArg List.length h
    rw [List.length_append] at hl
    exact hg2ne (List.length_eq_zero.1 (by omega))
  have hmg2 : g1 ++ g2 ≠ g2 := by
    intro h
    have hl := congrArg List.length h
    rw [List.length_append] at hl
    exact hg1ne (List.length_eq_zero.1 (by omega))
  have hmemkeys : ∀ k, k ∈ (aerase (aerase (aset freqs (g1 ++ g2) n) g1) g2).map Prod.fst
      ↔ (k ∈ freqs.map Prod.fst ∧ k ≠ g1 ∧ k ≠ g2) ∨ k = g1 ++ g2 := by
    intro k
    rw [mem_map_fst_aerase _ _ _ hE1nodup, mem_map_fst_aerase _ _ _ hF1nodup, hF1keys]
    simp only [List.mem_append, List.mem_singleton]
    constructor
    · rintro ⟨⟨hm | heq, hne1⟩, hne2⟩
      · exact Or.inl ⟨hm, hne1, hne2⟩
      · exact Or.inr heq
    · rintro (⟨hm, hne1, hne2⟩ | heq)
      · exact ⟨⟨Or.inl hm, hne1⟩, hne2⟩
      · subst heq
        exact ⟨⟨Or.inr rfl, hmg1⟩, hmg2⟩
  have hnodup_new :
      ((aerase (aerase (aset freqs (g1 ++ g2) n) g1) g2).map Prod.fst).Nodup :=
    aerase_nodup _ _ hE1nodup
  -- the code words after the two prepending passes
  set code2 := prependBit false g2 (prependBit true g1 code) with hcode2
  have hl1 : ∀ c ∈ g1, alookup code2 c = some (true :: codeWord code c) := by
    intro c hc
    rw [hcode2, prependBit_lookup_not_mem false g2 _ c (fun h => hdisj12 c hc h),
      prependBit_lookup_mem true g1 code (hinv.knodup g1 h1) c hc]
  have hl2 : ∀ c ∈ g2, alookup code2 c = some (false :: codeWord code c) := by
    intro c hc
    rw [hcode2, prependBit_lookup_mem false g2 _ (hinv.knodup g2 h2) c hc,
      prependBit_codeWord_not_mem true g1 code c (fun h => hdisj12 c h hc)]
  have hlo : ∀ c, c ∉ g1 → c ∉ g2 → alookup code2 c = alookup code c := by
    intro c hc1 hc2
    rw [hcode2, prependBit_lookup_not_mem false g2 _ c hc2,
      prependBit_lookup_not_mem true g1 code c hc1]
  have hw1 : ∀ c ∈ g1, codeWord code2 c = true :: codeWord code c := by
    intro c hc; simp [codeWord, hl1 c hc]
  have hw2 : ∀ c ∈ g2, codeWord code2 c = false :: codeWord code c := by
    intro c hc; simp [codeWord, hl2 c hc]
  have hwo : ∀ c, c ∉ g1 → c ∉ g2 → codeWord code2 c = codeWord code c := by
    intro c hc1 hc2; simp [codeWord, hlo c hc1 hc2]
  have hcnodup2 : (code2.map Prod.fst).Nodup := by
    rw [hcode2]
    exact prependBit_nodup false g2 _ (prependBit_nodup true g1 code hinv.cnodup)
  refine ⟨⟨?_, ?_, ?_, ?_, ?_, ?_, ?_, ?_, ?_⟩, ?_, ?_⟩
  · -- fnodup
    exact hnodup_new
  · -- knonempty
    intro k hk
    rcases (hmemkeys k).1 hk with ⟨hkf, _, _⟩ | rfl
    · exact hinv.knonempty k hkf
    · simp [hg1ne]
  · -- knodup
    intro k hk
    rcases (hmemkeys k).1 hk with ⟨hkf, _, _⟩ | rfl
    · exact hinv.knodup k hkf
    · exact List.Nodup.append (hinv.knodup g1 h1) (hinv.knodup g2 h2) hdisj12
  · -- kdisj
    intro k hk k2 hk2 hkk2 c hc
    rcases (hmemkeys k).1 hk with ⟨hkf, hkg1, hkg2⟩ | rfl <;>
      rcases (hmemkeys k2).1 hk2 with ⟨hk2f, hk2g1, hk2g2⟩ | rfl
    · exact hinv.kdisj k hkf k2 hk2f hkk2 c hc
    · intro hcm
      rcases List.mem_append.1 hcm with hcg | hcg
      · exact hinv.kdisj g1 h1 k hkf (fun h => hkg1 h.symm) c hcg hc
      · exact hinv.kdisj g2 h2 k hkf (fun h => hkg2 h.symm) c hcg hc
    · rcases List.mem_append.1 hc with hcg | hcg
      · exact hinv.kdisj g1 h1 k2 hk2f (fun h => hk2g1 h.symm) c hcg
      · exact hinv.kdisj g2 h2 k2 hk2f (fun h => hk2g2 h.symm) c hcg
    · exact absurd rfl hkk2
  · -- cnodup
    exact hcnodup2
  · -- cdom
    intro c hc
    have step1 := prependBit_keys_sub false g2 _ c (hcode2 ▸ hc)
    have hcases : c ∈ code.map Prod.fst ∨ c ∈ g1 ∨ c ∈ g2 := by
      rcases step1 with h | h
      · rcases prependBit_keys_sub true g1 code c h with h2 | h2
        · exact Or.inl h2
        · exact Or.inr (Or.inl h2)
      · exact Or.inr (Or.inr h)
    have hmerged_mem : (g1 ++ g2) ∈
        (aerase (aerase (aset freqs (g1 ++ g2) n) g1) g2).map Prod.fst :=
      (hmemkeys _).2 (Or.inr rfl)
    rcases hcases with h | h | h
    · obtain ⟨k, hkf, hck⟩ := hinv.cdom c h
      by_cases hkg1 : k = g1
      · exact ⟨g1 ++ g2, hmerged_mem, List.mem_append_left _ (hkg1 ▸ hck)⟩
      · by_cases hkg2 : k = g2
        · exact ⟨g1 ++ g2, hmerged_mem, List.mem_append_right _ (hkg2 ▸ hck)⟩
        · exact ⟨k, (hmemkeys k).2 (Or.inl ⟨hkf, hkg1, hkg2⟩), hck⟩
    · exact ⟨g1 ++ g2, hmerged_mem, List.mem_append_left _ h⟩
    · exact ⟨g1 ++ g2, hmerged_mem, List.mem_append_right _ h⟩
  · -- cne
    intro e he
    have hle : alookup code2 e.1 = some e.2 :=
      alookup_eq_some_of_mem hcnodup2 (by simpa using he)
    by_cases heg1 : e.1 ∈ g1
    · rw [hl1 e.1 heg1] at hle
      simp only [Option.some.injEq] at hle
      simp [← hle]
    · by_cases heg2 : e.1 ∈ g2
      · rw [hl2 e.1 heg2] at hle
        simp only [Option.some.injEq] at hle
        simp [← hle]
      · rw [hlo e.1 heg1 heg2] at hle
        exact hinv.cne (e.1, e.2) (mem_of_alookup_eq_some hle)
  · -- ccomplete
    intro k hk hklen c hc
    rcases (hmemkeys k).1 hk with ⟨hkf, hkg1, hkg2⟩ | rfl
    · have hc1 : c ∉ g1 := hinv.kdisj k hkf g1 h1 hkg1 c hc
      have hc2 : c ∉ g2 := hinv.kdisj k hkf g2 h2 hkg2 c hc
      obtain ⟨v, hv, hvne⟩ := hinv.ccomplete k hkf hklen c hc
      exact ⟨v, (hlo c hc1 hc2).trans hv, hvne⟩
    · rcases List.mem_append.1 hc with hcg | hcg
      · exact ⟨true :: codeWord code c, hl1 c hcg, by simp⟩
      · exact ⟨false :: codeWord code c, hl2 c hcg, by simp⟩
  · -- cpf
    intro k hk c hc c2 hc2 hcc2
    rcases (hmemkeys k).1 hk with ⟨hkf, hkg1, hkg2⟩ | rfl
    · have hn1 : c ∉ g1 := hinv.kdisj k hkf g1 h1 hkg1 c hc
      have hn2 : c ∉ g2 := hinv.kdisj k hkf g2 h2 hkg2 c hc
      have hn1b : c2 ∉ g1 := hinv.kdisj k hkf g1 h1 hkg1 c2 hc2
      have hn2b : c2 ∉ g2 := hinv.kdisj k hkf g2 h2 hkg2 c2 hc2
      rw [hwo c hn1 hn2, hwo c2 hn1b hn2b]
      exact hinv.cpf k hkf c hc c2 hc2 hcc2
    · rcases List.mem_append.1 hc with hcg | hcg <;>
        rcases List.mem_append.1 hc2 with hcg2 | hcg2
      · rw [hw1 c hcg, hw1 c2 hcg2]
        intro hpre
        exact hinv.cpf g1 h1 c hcg c2 hcg2 hcc2 (List.cons_prefix_cons.1 hpre).2
      · rw [hw1 c hcg, hw2 c2 hcg2]
        intro hpre
        simpa using (List.cons_prefix_cons.1 hpre).1
      · rw [hw2 c hcg, hw1 c2 hcg2]
        intro hpre
        simpa using (List.cons_prefix_cons.1 hpre).1
      · rw [hw2 c hcg, hw2 c2 hcg2]
        intro hpre
        exact hinv.cpf g2 h2 c hcg c2 hcg2 hcc2 (List.cons_prefix_cons.1 hpre).2
  · -- exactly one key fewer
    have l1 : (aset freqs (g1 ++ g2) n).length = freqs.length + 1 := by
      rw [aset_of_not_mem _ hmfresh]
      simp
    have l2 := aerase_length _ _ hg1F1
    have l3 := aerase_length _ _ hg2E1
    omega
  · -- the partitioned character set is preserved
    intro c
    constructor
    · rintro ⟨k, hk, hck⟩
      rcases (hmemkeys k).1 hk with ⟨hkf, _, _⟩ | rfl
      · exact ⟨k, hkf, hck⟩
      · rcases List.mem_append.1 hck with h | h
        · exact ⟨g1, h1, h⟩
        · exact ⟨g2, h2, h⟩
    · rintro ⟨k, hkf, hck⟩
      by_cases hkg1 : k = g1
      · exact ⟨g1 ++ g2, (hmemkeys _).2 (Or.inr rfl),
          List.mem_append_left _ (hkg1 ▸ hck)⟩
      · by_cases hkg2 : k = g2
        · exact ⟨g1 ++ g2, (hmemkeys _).2 (Or.inr rfl),
            List.mem_append_right _ (hkg2 ▸ hck)⟩
        · exact ⟨k, (hmemkeys k).2 (Or.inl ⟨hkf, hkg1, hkg2⟩), hck⟩

/-- Running the merge loop with enough fuel preserves the invariant, ends with
at most one (and, for a non-empty dict, exactly one) frequency group, and
preserves the partitioned character set. -/
theorem huffLoop_inv (fuel : Nat) :
    ∀ (freqs : List (List Char × Nat)) (code : List (Char × Bits)) (tb : Nat),
      HuffInv freqs code → freqs.length ≤ fuel + 1 →
      HuffInv (huffLoop fuel freqs code tb).1 (huffLoop fuel freqs code tb).2.1 ∧
      (huffLoop fuel freqs code tb).1.length ≤ 1 ∧
      (freqs ≠ [] → (huffLoop fuel freqs code tb).1 ≠ []) ∧
      (∀ c, (∃ k ∈ (huffLoop fuel freqs code tb).1.map Prod.fst, c ∈ k)
        ↔ ∃ k ∈ freqs.map Prod.fst, c ∈ k) := by
  induction fuel with
  | zero =>
    intro freqs code tb hinv hfuel
    refine ⟨hinv, ?_, fun h => h, fun c => Iff.rfl⟩
    show freqs.length ≤ 1
    omega
  | succ fuel ih =>
    intro freqs code tb hinv hfuel
    have hperm0 : (sortedDescBy (freqGet freqs) (freqs.map Prod.fst)).Perm
        (freqs.map Prod.fst) := sortedDescBy_perm _ _
    rcases hsc : (sortedDescBy (freqGet freqs) (freqs.map Prod.fst)).reverse with
      _ | ⟨s, rest⟩
    · have hred : huffLoop (fuel + 1) freqs code tb = (freqs, code, tb) := by
        rw [huffLoop, hsc]
      have hsnil : sortedDescBy (freqGet freqs) (freqs.map Prod.fst) = [] := by
        have := congrArg List.reverse hsc
        simpa using this
      have hkl : (freqs.map Prod.fst).length = 0 := by
        rw [← hperm0.length_eq, hsnil]
        rfl
      have hfl : freqs.length = 0 := by simpa using hkl
      rw [hred]
      refine ⟨hinv, ?_, fun h => h, fun c => Iff.rfl⟩
      show freqs.length ≤ 1
      omega
    · rcases rest with _ | ⟨s2, rest2⟩
      · have hred : huffLoop (fuel + 1) freqs code tb = (freqs, code, tb) := by
          rw [huffLoop, hsc]
        have hsl : (sortedDescBy (freqGet freqs) (freqs.map Prod.fst)).length = 1 := by
          rw [← List.length_reverse, hsc]
          rfl
        have hkl : (freqs.map Prod.fst).length = 1 := by
          rw [← hperm0.length_eq, hsl]
        have hfl : freqs.length = 1 := by simpa using hkl
        rw [hred]
        refine ⟨hinv, ?_, fun h => h, fun c => Iff.rfl⟩
        show freqs.length ≤ 1
        omega
      · -- a genuine merge step
        have hpermrev : ((sortedDescBy (freqGet freqs) (freqs.map Prod.fst)).reverse).Perm
            (freqs.map Prod.fst) :=
          (List.reverse_perm _).trans hperm0
        have hperm : (s :: s2 :: rest2).Perm (freqs.map Prod.fst) := hsc ▸ hpermrev
        have hs : s ∈ freqs.map Prod.fst := hperm.subset (List.mem_cons_self _ _)
        have hs2 : s2 ∈ freqs.map Prod.fst :=
          hperm.subset (List.mem_cons_of_mem _ (List.mem_cons_self _ _))
        have hss2 : s ≠ s2 := by
          have hnd : (s :: s2 :: rest2).Nodup := hperm.symm.nodup hinv.fnodup
          have := (List.nodup_cons.1 hnd).1
          intro h
          exact this (h ▸ List.mem_cons_self _ _)
        have hred : huffLoop (fuel + 1) freqs code tb
            = huffLoop fuel
                (aerase (aerase (aset freqs (s ++ s2)
                  (freqGet freqs s + freqGet freqs s2)) s) s2)
                (prependBit false s2 (prependBit true s code))
                (tb + (freqGet freqs s + freqGet freqs s2)) := by
          rw [huffLoop, hsc]
        obtain ⟨hinv2, hlen2, hchars2⟩ :=
          huffStep freqs code s s2 (freqGet freqs s + freqGet freqs s2) hinv hs hs2 hss2
        have hne2 : (aerase (aerase (aset freqs (s ++ s2)
            (freqGet freqs s + freqGet freqs s2)) s) s2) ≠ [] := by
          obtain ⟨c, hc⟩ : ∃ c, c ∈ s := by
            cases hcs : s with
            | nil => exact absurd hcs (hinv.knonempty s hs)
            | cons a l => exact ⟨a, List.mem_cons_self _ _⟩
          obtain ⟨k, hk, _⟩ := (hchars2 c).2 ⟨s, hs, hc⟩
          intro hnil
          rw [hnil] at hk
          cases hk
        obtain ⟨ihinv, ihlen, ihne, ihchars⟩ :=
          ih _ (prependBit false s2 (prependBit true s code))
            (tb + (freqGet freqs s + freqGet freqs s2)) hinv2 (by omega)
        rw [hred]
        refine ⟨ihinv, ihlen, fun _ => ihne hne2, fun c => (ihchars c).trans (hchars2 c)⟩

/-- The frequency map is exactly one singleton-keyed entry per distinct
character, in first-occurrence order, carrying the whole-text count. -/
theorem mkFrequencies_eq (text : List Char) :
    mkFrequencies text = (uniqueChars text).map (fun c => ([c], text.count c)) := by
  have keysmap : ∀ uacc : List Char,
      ((uacc.map (fun c => ([c], text.count c))).map Prod.fst)
        = uacc.map (fun c => [c]) := by
    intro uacc
    rw [List.map_map]
    rfl
  have memkeys : ∀ (uacc : List Char) (x : Char),
      [x] ∈ uacc.map (fun c => [c]) ↔ x ∈ uacc := by
    intro uacc x
    constructor
    · intro h
      obtain ⟨c, hc, hcx⟩ := List.mem_map.1 h
      have : c = x := by
        have := List.cons.injEq c [] x [] ▸ hcx
        simpa using hcx
      exact this ▸ hc
    · intro h
      exact List.mem_map_of_mem _ h
  have go : ∀ (l : List Char) (uacc : List Char),
      l.foldl
        (fun freqs c =>
          if (alookup freqs [c]).isSome then freqs
          else aset freqs [c] (text.count c))
        (uacc.map (fun c => ([c], text.count c)))
      = (l.foldl (fun acc c => if c ∈ acc then acc else acc ++ [c]) uacc).map
          (fun c => ([c], text.count c)) := by
    intro l
    induction l with
    | nil => intro uacc; rfl
    | cons x xs ih =>
      intro uacc
      by_cases hx : x ∈ uacc
      · have hsome : (alookup (uacc.map (fun c => ([c], text.count c))) [x]).isSome := by
          rw [alookup_isSome, keysmap]
          exact (memkeys uacc x).2 hx
        simp only [List.foldl_cons, if_pos hsome, if_pos hx]
        exact ih uacc
      · have hnmem : [x] ∉ (uacc.map (fun c => ([c], text.count c))).map Prod.fst := by
          rw [keysmap]
          exact fun h => hx ((memkeys uacc x).1 h)
        have hnone : ¬ (alookup (uacc.map (fun c => ([c], text.count c))) [x]).isSome := by
          rw [alookup_isSome]
          exact hnmem
        have hset : aset (uacc.map (fun c => ([c], text.count c))) [x] (text.count x)
            = (uacc ++ [x]).map (fun c => ([c], text.count c)) := by
          rw [aset_of_not_mem _ hnmem]
          simp
        simp only [List.foldl_cons, if_neg hnone, if_neg hx, hset]
        exact ih (uacc ++ [x])
  have h := go text []
  simpa [mkFrequencies, uniqueChars] using h

/-- The invariant holds on entry to the merge loop. -/
theorem initial_inv (text : List Char) : HuffInv (mkFrequencies text) [] := by
  rw [mkFrequencies_eq]
  have hkeys : (((uniqueChars text).map (fun c => ([c], text.count c))).map Prod.fst)
      = (uniqueChars text).map (fun c => [c]) := by
    rw [List.map_map]
    rfl
  have hmemk : ∀ k, k ∈ ((uniqueChars text).map
      (fun c => ([c], text.count c))).map Prod.fst ↔
      ∃ c ∈ uniqueChars text, k = [c] := by
    intro k
    rw [hkeys]
    constructor
    · intro h
      obtain ⟨c, hc, hck⟩ := List.mem_map.1 h
      exact ⟨c, hc, hck.symm⟩
    · rintro ⟨c, hc, rfl⟩
      exact List.mem_map_of_mem _ hc
  refine ⟨?_, ?_, ?_, ?_, ?_, ?_, ?_, ?_, ?_⟩
  · rw [hkeys]
    refine List.Nodup.map ?_ (uniqueChars_nodup text)
    intro a b h
    simpa using h
  · intro k hk
    obtain ⟨c, _, rfl⟩ := (hmemk k).1 hk
    simp
  · intro k hk
    obtain ⟨c, _, rfl⟩ := (hmemk k).1 hk
    simp
  · intro k hk k2 hk2 hkk2 c hc
    obtain ⟨c1, _, rfl⟩ := (hmemk k).1 hk
    obtain ⟨c2, _, rfl⟩ := (hmemk k2).1 hk2
    simp only [List.mem_singleton] at hc ⊢
    subst hc
    intro h
    exact hkk2 (by rw [h])
  · simp
  · intro c hc
    simp at hc
  · intro e he
    simp at he
  · intro k hk hklen c hc
    obtain ⟨c1, _, rfl⟩ := (hmemk k).1 hk
    simp at hklen
  · intro k hk c hc c2 hc2 hcc2
    obtain ⟨c1, _, rfl⟩ := (hmemk k).1 hk
    simp only [List.mem_singleton] at hc hc2
    exact absurd (hc.trans hc2.symm) hcc2

/-- The structural properties of a generated Huffman table: distinct keys,
non-empty code words, prefix-freeness across distinct symbols, and (for at
least two distinct symbols) an entry for every character of the corpus. -/
theorem generateHuffman_props (text : List Char) (tbl : List (Char × Bits)) (q : ℚ)
    (h : generateHuffman text = some (tbl, q)) :
    (tbl.map Prod.fst).Nodup ∧
    (∀ e ∈ tbl, e.2 ≠ []) ∧
    (∀ a va b vb, (a, va) ∈ tbl → (b, vb) ∈ tbl → a ≠ b → ¬ va <+: vb) ∧
    (2 ≤ (uniqueChars text).length → ∀ c ∈ text, ∃ v, alookup tbl c = some v) := by
  have htext : ¬ text.length = 0 := by
    intro h0
    rw [generateHuffman] at h
    simp [h0] at h
  have htbl : tbl = (huffLoop (mkFrequencies text).length (mkFrequencies text) [] 0).2.1 := by
    rw [generateHuffman] at h
    simp only [htext, if_false, Option.some.injEq, Prod.mk.injEq] at h
    exact h.1.symm
  obtain ⟨hinv, hlen, hne, hchars⟩ := huffLoop_inv (mkFrequencies text).length
    (mkFrequencies text) [] 0 (initial_inv text) (by omega)
  have huqne : uniqueChars text ≠ [] := by
    intro hnil
    exact htext (by rw [(uniqueChars_eq_nil text).1 hnil]; rfl)
  have hFne : mkFrequencies text ≠ [] := by
    rw [mkFrequencies_eq]
    intro hnil
    exact huqne (List.map_eq_nil_iff.1 hnil)
  have hne' := hne hFne
  obtain ⟨g, hg⟩ : ∃ g, (huffLoop (mkFrequencies text).length
      (mkFrequencies text) [] 0).1.map Prod.fst = [g] := by
    cases hR1 : (huffLoop (mkFrequencies text).length (mkFrequencies text) [] 0).1 with
    | nil => exact absurd hR1 hne'
    | cons p ps =>
      cases ps with
      | nil => exact ⟨p.1, rfl⟩
      | cons p2 ps2 =>
        rw [hR1] at hlen
        simp at hlen
  have hFkeys : (mkFrequencies text).map Prod.fst
      = (uniqueChars text).map (fun c => [c]) := by
    rw [mkFrequencies_eq, List.map_map]
    rfl
  have hcg : ∀ c, c ∈ g ↔ c ∈ text := by
    intro c
    have h1 := hchars c
    rw [hg, hFkeys] at h1
    constructor
    · intro hcgg
      obtain ⟨k, hk, hck⟩ := h1.1 ⟨g, List.mem_singleton.2 rfl, hcgg⟩
      obtain ⟨c1, hc1, rfl⟩ := List.mem_map.1 hk
      have : c = c1 := by simpa using hck
      exact (mem_uniqueChars text c).1 (this ▸ hc1)
    · intro hct
      obtain ⟨k, hk, hck⟩ := h1.2
        ⟨[c], List.mem_map_of_mem _ ((mem_uniqueChars text c).2 hct), List.mem_singleton.2 rfl⟩
      rw [List.mem_singleton.1 hk] at hck
      exact hck
  have hgmem : g ∈ (huffLoop (mkFrequencies text).length
      (mkFrequencies text) [] 0).1.map Prod.fst := by
    rw [hg]
    exact List.mem_singleton.2 rfl
  refine ⟨htbl ▸ hinv.cnodup, htbl ▸ hinv.cne, ?_, ?_⟩
  · intro a va b vb hma hmb hab
    rw [htbl] at hma hmb
    have hag : a ∈ g := by
      obtain ⟨k, hk, hak⟩ := hinv.cdom a (List.mem_map_of_mem Prod.fst hma)
      rw [hg, List.mem_singleton] at hk
      exact hk ▸ hak
    have hbg : b ∈ g := by
      obtain ⟨k, hk, hbk⟩ := hinv.cdom b (List.mem_map_of_mem Prod.fst hmb)
      rw [hg, List.mem_singleton] at hk
      exact hk ▸ hbk
    have hpf := hinv.cpf g hgmem a hag b hbg hab
    have hwa : codeWord (huffLoop (mkFrequencies text).length
        (mkFrequencies text) [] 0).2.1 a = va := by
      simp [codeWord, alookup_eq_some_of_mem hinv.cnodup hma]
    have hwb : codeWord (huffLoop (mkFrequencies text).length
        (mkFrequencies text) [] 0).2.1 b = vb := by
      simp [codeWord, alookup_eq_some_of_mem hinv.cnodup hmb]
    rw [hwa, hwb] at hpf
    exact hpf
  · intro h2 c hct
    have hcg2 : c ∈ g := (hcg c).2 hct
    have hglen : 2 ≤ g.length := by
      obtain ⟨x, y, ys, hxy⟩ : ∃ x y ys, uniqueChars text = x :: y :: ys := by
        cases hu : uniqueChars text with
        | nil => exact absurd hu huqne
        | cons x us =>
          cases us with
          | nil =>
            rw [hu] at h2
            simp at h2
          | cons y ys => exact ⟨x, y, ys, rfl⟩
      have hxney : x ≠ y := by
        have hnd := uniqueChars_nodup text
        rw [hxy] at hnd
        have := (List.nodup_cons.1 hnd).1
        exact fun h => this (h ▸ List.mem_cons_self _ _)
      have hxmem : x ∈ g := (hcg x).2 ((mem_uniqueChars text x).1 (hxy ▸ List.mem_cons_self _ _))
      have hymem : y ∈ g := (hcg y).2 ((mem_uniqueChars text y).1
        (hxy ▸ List.mem_cons_of_mem _ (List.mem_cons_self _ _)))
      exact two_le_length_of_mem g x y hxmem hymem hxney
    obtain ⟨v, hv, _⟩ := hinv.ccomplete g hgmem hglen c hcg2
    exact ⟨v, htbl ▸ hv⟩

/-! ## Decoding inverts encoding on a prefix-free table -/

theorem maxCodeLen_ge (code : List (Char × Bits)) :
    ∀ e ∈ code, e.2.length ≤ maxCodeLen code := by
  induction code with
  | nil => intro e he; cases he
  | cons p ps ih =>
    intro e he
    rcases List.mem_cons.1 he with rfl | hm
    · simp [maxCodeLen]
    · have h := ih e hm
      simp only [maxCodeLen, List.map_cons, List.foldr_cons] at h ⊢
      omega

/-- A proper prefix of a code word of a prefix-free table matches no entry. -/
theorem proper_prefix_no_match (tbl : List (Char × Bits))
    (hnodup : (tbl.map Prod.fst).Nodup)
    (hpf : ∀ a va b vb, (a, va) ∈ tbl → (b, vb) ∈ tbl → a ≠ b → ¬ va <+: vb)
    (c : Char) (v : Bits) (hv : alookup tbl c = some v)
    (p : Bits) (hpre : p <+: v) (hne : p ≠ v) :
    ∀ e ∈ tbl, p ≠ e.2 := by
  rintro ⟨d, vd⟩ he heq
  by_cases hdc : d = c
  · subst hdc
    have hvd : vd = v := by
      have h2 := alookup_eq_some_of_mem hnodup he
      rw [hv] at h2
      exact (Option.some.inj h2).symm
    exact hne (heq.trans hvd)
  · refine hpf d vd c v he (mem_of_alookup_eq_some hv) hdc ?_
    have heq2 : p = vd := heq
    exact heq2 ▸ hpre

/-- The only entry whose code word is `v` is `(c, v)` itself. -/
theorem match_unique (tbl : List (Char × Bits))
    (hnodup : (tbl.map Prod.fst).Nodup)
    (hpf : ∀ a va b vb, (a, va) ∈ tbl → (b, vb) ∈ tbl → a ≠ b → ¬ va <+: vb)
    (c : Char) (v : Bits) (hv : alookup tbl c = some v) :
    ∀ e ∈ tbl, e.2 = v → e = (c, v) := by
  rintro ⟨d, vd⟩ he heq
  simp only at heq
  subst heq
  by_cases hdc : d = c
  · subst hdc
    rfl
  · exact absurd (List.prefix_refl vd)
      (hpf d vd c vd he (mem_of_alookup_eq_some hv) hdc)

/-- Consuming one code word: feeding the bits of `v` (the code of `c`) to the
scan emits exactly `c`. -/
theorem foldl_decodeStep_consume (tbl : List (Char × Bits))
    (hnodup : (tbl.map Prod.fst).Nodup)
    (hpf : ∀ a va b vb, (a, va) ∈ tbl → (b, vb) ∈ tbl → a ≠ b → ¬ va <+: vb)
    (hvalne : ∀ e ∈ tbl, e.2 ≠ ([] : Bits))
    (c : Char) (v : Bits) (hv : alookup tbl c = some v) :
    ∀ (q p : Bits), p ++ q = v → q ≠ [] →
      ∀ (res : List Char) (rest : Bits),
      (q ++ rest).foldl (decodeStep tbl (maxCodeLen tbl)) (res, p)
        = rest.foldl (decodeStep tbl (maxCodeLen tbl)) (res ++ [c], []) := by
  intro q
  induction q with
  | nil => intro p _ hq; cases hq rfl
  | cons b q' ih =>
    intro p hpq hq res rest
    cases hq' : q' with
    | nil =>
      subst hq'
      have hpv : p ++ [b] = v := by simpa using hpq
      have hmem : (c, p ++ [b]) ∈ tbl := by
        rw [hpv]
        exact mem_of_alookup_eq_some hv
      have huniq : ∀ e ∈ tbl, e.2 = p ++ [b] → e = (c, p ++ [b]) := by
        rw [hpv]
        exact match_unique tbl hnodup hpf c v hv
      have hlen : (p ++ [b]).length ≤ maxCodeLen tbl := by
        rw [hpv]
        exact maxCodeLen_ge tbl (c, v) (mem_of_alookup_eq_some hv)
      simp only [List.cons_append, List.foldl_cons]
      rw [decodeStep_match tbl (maxCodeLen tbl) res p b c hmem huniq hvalne hlen]
      simp
    | cons b2 q'' =>
      subst hq'
      have hppre : (p ++ [b]) ++ (b2 :: q'') = v := by
        simpa [List.append_assoc] using hpq
      have hprop : p ++ [b] ≠ v := by
        intro h
        have hl := congrArg List.length hppre
        rw [h] at hl
        simp at hl
      have hpre : (p ++ [b]) <+: v := ⟨b2 :: q'', hppre⟩
      have hnm := proper_prefix_no_match tbl hnodup hpf c v hv (p ++ [b]) hpre hprop
      have hlen : (p ++ [b]).length ≤ maxCodeLen tbl := by
        have hvlen := maxCodeLen_ge tbl (c, v) (mem_of_alookup_eq_some hv)
        simp only at hvlen
        have hl := congrArg List.length hppre
        simp only [List.length_append, List.length_cons, List.length_singleton] at hl ⊢
        omega
      simp only [List.cons_append, List.foldl_cons]
      rw [decodeStep_keep tbl (maxCodeLen tbl) res p b hnm hlen]
      exact ih (p ++ [b]) hppre (by simp) res rest

/-- Decoding the concatenated code words of `S` returns exactly `S`. -/
theorem foldl_decodeStep_codeConcat (tbl : List (Char × Bits))
    (hnodup : (tbl.map Prod.fst).Nodup)
    (hpf : ∀ a va b vb, (a, va) ∈ tbl → (b, vb) ∈ tbl → a ≠ b → ¬ va <+: vb)
    (hvalne : ∀ e ∈ tbl, e.2 ≠ ([] : Bits)) :
    ∀ (S : List Char) (res : List Char),
      (∀ c ∈ S, (alookup tbl c).isSome) →
      (codeConcat tbl S).foldl (decodeStep tbl (maxCodeLen tbl)) (res, [])
        = (res ++ S, []) := by
  intro S
  induction S with
  | nil => intro res _; simp [codeConcat]
  | cons c cs ih =>
    intro res hall
    obtain ⟨v, hv⟩ := Option.isSome_iff_exists.1 (hall c (List.mem_cons_self _ _))
    have hvne : v ≠ [] := hvalne (c, v) (mem_of_alookup_eq_some hv)
    show ((alookup tbl c).getD [] ++ codeConcat tbl cs).foldl
      (decodeStep tbl (maxCodeLen tbl)) (res, []) = _
    rw [hv]
    simp only [Option.getD_some]
    rw [show (v ++ codeConcat tbl cs).foldl (decodeStep tbl (maxCodeLen tbl)) (res, [])
        = (codeConcat tbl cs).foldl (decodeStep tbl (maxCodeLen tbl)) (res ++ [c], [])
      from foldl_decodeStep_consume tbl hnodup hpf hvalne c v hv v [] (by simp) hvne
        res (codeConcat tbl cs)]
    rw [ih (res ++ [c]) (fun d hd => hall d (List.mem_cons_of_mem _ hd))]
    simp

theorem decode_codeConcat (tbl : List (Char × Bits))
    (hnodup : (tbl.map Prod.fst).Nodup)
    (hpf : ∀ a va b vb, (a, va) ∈ tbl → (b, vb) ∈ tbl → a ≠ b → ¬ va <+: vb)
    (hvalne : ∀ e ∈ tbl, e.2 ≠ ([] : Bits))
    (S : List Char) (hall : ∀ c ∈ S, (alookup tbl c).isSome) :
    decode (codeConcat tbl S) tbl = S := by
  unfold decode decodeRun
  rw [foldl_decodeStep_codeConcat tbl hnodup hpf hvalne S [] hall]
  simp

/-- C2: for every corpus on which `generateHuffman` returns, the code table is
prefix-free: for every pair of entries with distinct symbols, neither code is a
prefix of the other.  (On a single-distinct-symbol corpus the table is empty
and the property holds vacuously.) -/
theorem C2_generated_table_prefixFree (text : List Char) (tbl : List (Char × Bits))
    (q : ℚ) (h : generateHuffman text = some (tbl, q)) :
    ∀ a va b vb, (a, va) ∈ tbl → (b, vb) ∈ tbl → a ≠ b →
      ¬ va <+: vb ∧ ¬ vb <+: va := by
  obtain ⟨_, _, hpf, _⟩ := generateHuffman_props text tbl q h
  intro a va b vb hma hmb hab
  exact ⟨hpf a va b vb hma hmb hab, hpf b vb a va hmb hma (Ne.symm hab)⟩

/-- Witness for C2 at the corpus `"abb"`. -/
theorem C2_generated_table_prefixFree_witness :
    generateHuffman ['a', 'b', 'b']
      = some ([('a', [true]), ('b', [false])], ((3 : Nat) : ℚ) / ((3 : Nat) : ℚ)) ∧
    (¬ ([true] : Bits) <+: [false] ∧ ¬ ([false] : Bits) <+: [true]) :=
  ⟨rfl, C2_generated_table_prefixFree ['a', 'b', 'b'] [('a', [true]), ('b', [false])]
    (((3 : Nat) : ℚ) / ((3 : Nat) : ℚ)) rfl 'a' [true] 'b' [false]
    (by decide) (by decide) (by decide)⟩

/-- C1 (amended): for every corpus with AT LEAST TWO distinct symbols and every
symbol sequence drawn from the corpus, encoding succeeds and decoding the
encoding returns the original sequence; in particular no unknown-marker beyond
the literal `'?'` characters of the input can appear.  (For a single-distinct-
symbol corpus the claim fails: the table is empty and `encode` raises
`KeyError`, see the counterexample.) -/
theorem C1_roundtrip_amended (C S : List Char) (h2 : 2 ≤ (uniqueChars C).length)
    (hS : ∀ c ∈ S, c ∈ C) :
    ∃ tbl q bits, generateHuffman C = some (tbl, q) ∧ encode S tbl = some bits ∧
      decode bits tbl = S ∧ ('?' ∉ S → '?' ∉ decode bits tbl) := by
  have hCne : C ≠ [] := by
    intro h0
    rw [h0] at h2
    simp [uniqueChars] at h2
  have hlen : ¬ C.length = 0 := fun h0 => hCne (List.length_eq_zero.1 h0)
  obtain ⟨tbl, q, hsome⟩ : ∃ tbl q, generateHuffman C = some (tbl, q) := by
    refine ⟨(huffLoop (mkFrequencies C).length (mkFrequencies C) [] 0).2.1,
      (((huffLoop (mkFrequencies C).length (mkFrequencies C) [] 0).2.2 : ℚ)
        / (C.length : ℚ)), ?_⟩
    rw [generateHuffman]
    simp [hlen]
  obtain ⟨hnodup, hvalne, hpf, hcomplete⟩ := generateHuffman_props C tbl q hsome
  have hall : ∀ c ∈ S, (alookup tbl c).isSome := by
    intro c hc
    obtain ⟨v, hv⟩ := hcomplete h2 c (hS c hc)
    simp [hv]
  have henc : encode S tbl = some (codeConcat tbl S) :=
    (encode_spec S tbl).2 fun c hc => by
      obtain ⟨v, hv⟩ := hcomplete h2 c (hS c hc)
      simp [hv]
  have hdec := decode_codeConcat tbl hnodup hpf hvalne S hall
  exact ⟨tbl, q, codeConcat tbl S, hsome, henc, hdec,
    fun hq => by rw [hdec]; exact hq⟩

/-- C1 counterexample: on the corpus `"aa"` (one distinct symbol, drawn-from
sequence `"a"`), the generated table is empty, so `encode` raises `KeyError`
and the round trip fails. -/
theorem C1_roundtrip_counterexample :
    (∀ c ∈ (['a'] : List Char), c ∈ (['a', 'a'] : List Char)) ∧
    ¬ ∀ tbl q, generateHuffman ['a', 'a'] = some (tbl, q) →
      ∃ bits, encode ['a'] tbl = some bits ∧ decode bits tbl = ['a'] := by
  refine ⟨by decide, ?_⟩
  intro hclaim
  have h1 : generateHuffman ['a', 'a']
      = some ([], ((0 : Nat) : ℚ) / ((2 : Nat) : ℚ)) := rfl
  obtain ⟨bits, hb, _⟩ := hclaim [] _ h1
  simp [encode, alookup] at hb

/-- Witness for C1 (amended) at the corpus `"abb"` and input `"bab"`. -/
theorem C1_roundtrip_witness :
    2 ≤ (uniqueChars ['a', 'b', 'b']).length ∧
    ∃ tbl q bits, generateHuffman ['a', 'b', 'b'] = some (tbl, q) ∧
      encode ['b', 'a', 'b'] tbl = some bits ∧
      decode bits tbl = ['b', 'a', 'b'] ∧
      ('?' ∉ (['b', 'a', 'b'] : List Char) → '?' ∉ decode bits tbl) :=
  ⟨by decide, C1_roundtrip_amended ['a', 'b', 'b'] ['b', 'a', 'b']
    (by decide) (by decide)⟩

/-! ## The `k` smallest elements (toward C7)

The merge loop repeatedly pops the two current minima; its cost accounting
rests on the function `minSum k l`, the sum of the `k` smallest elements. -/

theorem insertAsc_perm (x : Nat) (l : List Nat) : (insertAsc x l).Perm (x :: l) := by
  induction l with
  | nil => exact List.Perm.refl _
  | cons y ys ih =>
    by_cases h : x ≤ y
    · simp [insertAsc, h]
    · rw [show insertAsc x (y :: ys) = y :: insertAsc x ys from by simp [insertAsc, h]]
      exact (ih.cons y).trans (List.Perm.swap x y ys)

theorem insertAsc_sorted (x : Nat) (l : List Nat) (hs : l.Pairwise (· ≤ ·)) :
    (insertAsc x l).Pairwise (· ≤ ·) := by
  induction l with
  | nil => simp [insertAsc]
  | cons y ys ih =>
    obtain ⟨hy, hys⟩ := List.pairwise_cons.1 hs
    by_cases h : x ≤ y
    · rw [show insertAsc x (y :: ys) = x :: y :: ys from by simp [insertAsc, h]]
      refine List.pairwise_cons.2 ⟨?_, hs⟩
      intro z hz
      rcases List.mem_cons.1 hz with rfl | hz
      · exact h
      · exact h.trans (hy z hz)
    · rw [show insertAsc x (y :: ys) = y :: insertAsc x ys from by simp [insertAsc, h]]
      refine List.pairwise_cons.2 ⟨?_, ih hys⟩
      intro z hz
      rcases List.mem_cons.1 ((insertAsc_perm x ys).mem_iff.1 hz) with rfl | hz
      · omega
      · exact hy z hz

theorem sortAsc_perm (l : List Nat) : (sortAsc l).Perm l := by
  induction l with
  | nil => exact List.Perm.refl _
  | cons x xs ih => exact (insertAsc_perm x (sortAsc xs)).trans (ih.cons x)

theorem sortAsc_sorted (l : List Nat) : (sortAsc l).Pairwise (· ≤ ·) := by
  induction l with
  | nil => simp [sortAsc]
  | cons x xs ih => exact insertAsc_sorted x (sortAsc xs) ih

theorem sortAsc_eq_of_perm (l l' : List Nat) (h : l.Perm l') : sortAsc l = sortAsc l' :=
  List.eq_of_perm_of_sorted ((sortAsc_perm l).trans (h.trans (sortAsc_perm l').symm))
    (sortAsc_sorted l) (sortAsc_sorted l')

theorem minSum_perm (k : Nat) (l l' : List Nat) (h : l.Perm l') :
    minSum k l = minSum k l' := by
  rw [minSum, minSum, sortAsc_eq_of_perm l l' h]

theorem minSum_le_sum (k : Nat) (l : List Nat) : minSum k l ≤ l.sum := by
  rw [minSum, ← (sortAsc_perm l).sum_eq]
  conv_rhs => rw [← List.take_append_drop k (sortAsc l)]
  rw [List.sum_append]
  omega

/-- Inserting one more element never increases the sum of the `k` smallest. -/
theorem sum_take_insertAsc (x : Nat) :
    ∀ (s : List Nat), s.Pairwise (· ≤ ·) → ∀ k, k ≤ s.length →
      ((insertAsc x s).take k).sum ≤ (s.take k).sum
  | [], _, k, hk => by
    have hk0 : k = 0 := by simpa using hk
    subst hk0
    simp [insertAsc]
  | y :: ys, hs, k, hk => by
    obtain ⟨hy, hys⟩ := List.pairwise_cons.1 hs
    by_cases h : x ≤ y
    · rw [show insertAsc x (y :: ys) = x :: y :: ys from by simp [insertAsc, h]]
      match k, hk with
      | 0, _ => simp
      | 1, _ => simpa using h
      | k + 2, hk =>
        have hkys : k < ys.length := by
          simpa using hk
        rw [List.take_succ_cons, List.take_succ_cons, List.take_succ_cons,
          List.sum_cons, List.sum_cons, List.sum_cons, List.sum_take_succ ys k hkys]
        have hxk : x ≤ ys[k] :=
          h.trans (hy _ (List.getElem_mem hkys))
        have hgg : ys.get ⟨k, hkys⟩ = ys[k] := rfl
        omega
    · rw [show insertAsc x (y :: ys) = y :: insertAsc x ys from by simp [insertAsc, h]]
      match k, hk with
      | 0, _ => simp
      | k + 1, hk =>
        rw [List.take_succ_cons, List.take_succ_cons, List.sum_cons, List.sum_cons]
        have := sum_take_insertAsc x ys hys k (by simpa using hk)
        omega

/-- `minSum k` is antitone in the list: adding an element can only lower it. -/
theorem minSum_cons_le (k : Nat) (x : Nat) (l : List Nat) (hk : k ≤ l.length) :
    minSum k (x :: l) ≤ minSum k l := by
  rw [minSum, minSum, show sortAsc (x :: l) = insertAsc x (sortAsc l) from rfl]
  exact sum_take_insertAsc x (sortAsc l) (sortAsc_sorted l) k
    (by rw [(sortAsc_perm l).length_eq]; exact hk)

/-- Splitting off the two minima: when `l` consists of `a ≤ b` and elements all
at least `b`, the `k + 2` smallest are `a`, `b` and the `k` smallest of the
rest. -/
theorem minSum_two_min (k a b : Nat) (l w : List Nat) (hperm : l.Perm (a :: b :: w))
    (hab : a ≤ b) (hw : ∀ x ∈ w, b ≤ x) :
    minSum (k + 2) l = a + b + minSum k w := by
  have hsort : sortAsc l = a :: b :: sortAsc w := by
    refine List.eq_of_perm_of_sorted
      ((sortAsc_perm l).trans (hperm.trans (((sortAsc_perm w).symm.cons b).cons a)))
      (sortAsc_sorted l) ?_
    refine List.pairwise_cons.2 ⟨?_, List.pairwise_cons.2 ⟨?_, sortAsc_sorted w⟩⟩
    · intro z hz
      rcases List.mem_cons.1 hz with rfl | hz
      · exact hab
      · exact hab.trans (hw z ((sortAsc_perm w).mem_iff.1 hz))
    · intro z hz
      exact hw z ((sortAsc_perm w).mem_iff.1 hz)
  rw [minSum, minSum, hsort, List.take_succ_cons, List.take_succ_cons,
    List.sum_cons, List.sum_cons]
  omega

/-! ## Sortedness of the merge loop's sort -/

theorem insertDescBy_sorted (key : List Char → Nat) (x : List Char)
    (l : List (List Char)) (hs : l.Pairwise (fun a b => key b ≤ key a)) :
    (insertDescBy key x l).Pairwise (fun a b => key b ≤ key a) := by
  induction l with
  | nil => simp [insertDescBy]
  | cons y ys ih =>
    obtain ⟨hy, hys⟩ := List.pairwise_cons.1 hs
    by_cases h : key x ≤ key y
    · rw [show insertDescBy key x (y :: ys) = y :: insertDescBy key x ys from by
        simp [insertDescBy, h]]
      refine List.pairwise_cons.2 ⟨?_, ih hys⟩
      intro z hz
      rcases List.mem_cons.1 ((insertDescBy_perm key x ys).mem_iff.1 hz) with rfl | hz
      · exact h
      · exact hy z hz
    · rw [show insertDescBy key x (y :: ys) = x :: y :: ys from by
        simp [insertDescBy, h]]
      refine List.pairwise_cons.2 ⟨?_, hs⟩
      intro z hz
      rcases List.mem_cons.1 hz with rfl | hz
      · omega
      · have := hy z hz
        omega

theorem sortedDescBy_sorted (key : List Char → Nat) (l : List (List Char)) :
    (sortedDescBy key l).Pairwise (fun a b => key b ≤ key a) := by
  suffices h : ∀ acc, acc.Pairwise (fun a b => key b ≤ key a) →
      (l.foldl (fun acc x => insertDescBy key x acc) acc).Pairwise
        (fun a b => key b ≤ key a) by
    exact h [] (by simp)
  induction l with
  | nil => exact fun acc h => h
  | cons x xs ih =>
    intro acc hacc
    exact ih (insertDescBy key x acc) (insertDescBy_sorted key x acc hacc)

/-! ## Entry-level decomposition of the merge step -/

/-- Removing the key found by a lookup is, up to permutation, removing exactly
that entry. -/
theorem aerase_perm_of_alookup {κ ν : Type} [DecidableEq κ] (l : List (κ × ν))
    (k : κ) (v : ν) (h : alookup l k = some v) : l.Perm ((k, v) :: aerase l k) := by
  induction l with
  | nil => simp [alookup] at h
  | cons p ps ih =>
    obtain ⟨k0, v0⟩ := p
    by_cases hk : k = k0
    · subst hk
      have hv : v0 = v := by simpa [alookup] using h
      subst hv
      rw [show aerase ((k, v0) :: ps) k = ps from by simp [aerase]]
    · simp only [alookup, if_neg hk] at h
      rw [show aerase ((k0, v0) :: ps) k = (k0, v0) :: aerase ps k from by
        simp [aerase, hk]]
      exact ((ih h).cons (k0, v0)).trans (List.Perm.swap (k, v) (k0, v0) (aerase ps k))

/-- Erasing a key present in the left part of an append only touches that
part. -/
theorem aerase_append_left {κ ν : Type} [DecidableEq κ] (l r : List (κ × ν))
    (k : κ) (h : k ∈ l.map Prod.fst) : aerase (l ++ r) k = aerase l k ++ r := by
  induction l with
  | nil => simp at h
  | cons p ps ih =>
    obtain ⟨k0, v0⟩ := p
    by_cases hk : k = k0
    · subst hk
      simp [aerase]
    · have hps : k ∈ ps.map Prod.fst := by
        rcases List.mem_cons.1 h with heq | hm
        · exact absurd heq hk
        · exact hm
      simp [aerase, hk, ih hps]

/-- The merged key `g1 ++ g2` is never already a frequency-dict key (its
characters are split across the two popped groups). -/
theorem merged_key_fresh (freqs : List (List Char × Nat)) (code : List (Char × Bits))
    (g1 g2 : List Char) (hinv : HuffInv freqs code)
    (h1 : g1 ∈ freqs.map Prod.fst) (h2 : g2 ∈ freqs.map Prod.fst) (h12 : g1 ≠ g2) :
    (g1 ++ g2) ∉ freqs.map Prod.fst := by
  have hg1ne : g1 ≠ [] := hinv.knonempty g1 h1
  have hg2ne : g2 ≠ [] := hinv.knonempty g2 h2
  intro hm
  obtain ⟨c, hc⟩ : ∃ c, c ∈ g1 := by
    cases g1 with
    | nil => cases hg1ne rfl
    | cons a l => exact ⟨a, List.mem_cons_self _ _⟩
  by_cases hmg1 : g1 ++ g2 = g1
  · have hlg : g2.length = 0 := by
      have hl := congrArg List.length hmg1
      rw [List.length_append] at hl
      omega
    exact hg2ne (List.length_eq_zero.1 hlg)
  · exact hinv.kdisj (g1 ++ g2) hm g1 h1 hmg1 c (List.mem_append_left _ hc) hc

/-! ## Fuel arithmetic for the merge loop -/

/-- With at most one key left, the loop is over (any fuel). -/
theorem huffLoop_stop (fuel : Nat) (freqs : List (List Char × Nat))
    (code : List (Char × Bits)) (tb : Nat) (h : freqs.length ≤ 1) :
    huffLoop fuel freqs code tb = (freqs, code, tb) := by
  cases fuel with
  | zero => rfl
  | succ fuel =>
    have hlen : ((sortedDescBy (freqGet freqs) (freqs.map Prod.fst)).reverse).length
        ≤ 1 := by
      rw [List.length_reverse, (sortedDescBy_perm _ _).length_eq, List.length_map]
      exact h
    rcases hsc : (sortedDescBy (freqGet freqs) (freqs.map Prod.fst)).reverse with
      _ | ⟨s, rest⟩
    · rw [huffLoop, hsc]
    · rcases rest with _ | ⟨s2, rest2⟩
      · rw [huffLoop, hsc]
      · rw [hsc] at hlen
        simp at hlen

/-- Running the loop for `f1 + f2` steps is running it for `f1`, then `f2`. -/
theorem huffLoop_add (f1 f2 : Nat) :
    ∀ (freqs : List (List Char × Nat)) (code : List (Char × Bits)) (tb : Nat),
      huffLoop (f1 + f2) freqs code tb
        = huffLoop f2 (huffLoop f1 freqs code tb).1
            (huffLoop f1 freqs code tb).2.1 (huffLoop f1 freqs code tb).2.2 := by
  induction f1 with
  | zero =>
    intro freqs code tb
    rw [Nat.zero_add]
    rfl
  | succ f1 ih =>
    intro freqs code tb
    have harith : f1 + 1 + f2 = (f1 + f2) + 1 := by omega
    rcases hsc : (sortedDescBy (freqGet freqs) (freqs.map Prod.fst)).reverse with
      _ | ⟨s, rest⟩
    · have hstop : freqs.length = 0 := by
        have := congrArg List.length hsc
        rw [List.length_reverse, (sortedDescBy_perm _ _).length_eq,
          List.length_map] at this
        simpa using this
      have h1 : huffLoop (f1 + 1) freqs code tb = (freqs, code, tb) :=
        huffLoop_stop _ _ _ _ (by omega)
      rw [harith, huffLoop, hsc, h1]
      exact (huffLoop_stop f2 freqs code tb (by omega)).symm
    · rcases rest with _ | ⟨s2, rest2⟩
      · have hstop : freqs.length = 1 := by
          have := congrArg List.length hsc
          rw [List.length_reverse, (sortedDescBy_perm _ _).length_eq,
            List.length_map] at this
          simpa using this
        have h1 : huffLoop (f1 + 1) freqs code tb = (freqs, code, tb) :=
          huffLoop_stop _ _ _ _ (by omega)
        rw [harith, huffLoop, hsc, h1]
        exact (huffLoop_stop f2 freqs code tb (by omega)).symm
      · have hstep : ∀ f, huffLoop (f + 1) freqs code tb
            = huffLoop f
                (aerase (aerase (aset freqs (s ++ s2)
                  (freqGet freqs s + freqGet freqs s2)) s) s2)
                (prependBit false s2 (prependBit true s code))
                (tb + (freqGet freqs s + freqGet freqs s2)) := by
          intro f
          rw [huffLoop, hsc]
        rw [harith, hstep (f1 + f2), hstep f1, ih]

/-- Popping the last two keys of the descending sort yields the two minimal
frequency values, and the merge step replaces them in the value multiset by
their sum: there is a residue `W` (the untouched values, all at least as large)
with `values freqs ~ v₁ :: v₂ :: W` and `values (merged freqs) ~ (v₁+v₂) :: W`. -/
theorem huffPop_values (freqs : List (List Char × Nat)) (code : List (Char × Bits))
    (s s2 : List Char) (rest2 : List (List Char)) (hinv : HuffInv freqs code)
    (hsc : (sortedDescBy (freqGet freqs) (freqs.map Prod.fst)).reverse
      = s :: s2 :: rest2) :
    s ∈ freqs.map Prod.fst ∧ s2 ∈ freqs.map Prod.fst ∧ s ≠ s2 ∧
    ∃ W : List Nat,
      (freqs.map Prod.snd).Perm (freqGet freqs s :: freqGet freqs s2 :: W) ∧
      ((aerase (aerase (aset freqs (s ++ s2) (freqGet freqs s + freqGet freqs s2))
          s) s2).map Prod.snd).Perm
        ((freqGet freqs s + freqGet freqs s2) :: W) ∧
      freqGet freqs s ≤ freqGet freqs s2 ∧
      (∀ x ∈ W, freqGet freqs s2 ≤ x) := by
  have hperm0 : (sortedDescBy (freqGet freqs) (freqs.map Prod.fst)).Perm
      (freqs.map Prod.fst) := sortedDescBy_perm _ _
  have hpermrev : ((sortedDescBy (freqGet freqs) (freqs.map Prod.fst)).reverse).Perm
      (freqs.map Prod.fst) := (List.reverse_perm _).trans hperm0
  have hperm : (s :: s2 :: rest2).Perm (freqs.map Prod.fst) := hsc ▸ hpermrev
  have hs : s ∈ freqs.map Prod.fst := hperm.subset (List.mem_cons_self _ _)
  have hs2 : s2 ∈ freqs.map Prod.fst :=
    hperm.subset (List.mem_cons_of_mem _ (List.mem_cons_self _ _))
  have hss2 : s ≠ s2 := by
    have hnd : (s :: s2 :: rest2).Nodup := hperm.symm.nodup hinv.fnodup
    have := (List.nodup_cons.1 hnd).1
    intro h
    exact this (h ▸ List.mem_cons_self _ _)
  have hsorted : (s :: s2 :: rest2).Pairwise
      (fun a b => freqGet freqs a ≤ freqGet freqs b) := by
    have h1 := sortedDescBy_sorted (freqGet freqs) (freqs.map Prod.fst)
    have h2 : ((sortedDescBy (freqGet freqs) (freqs.map Prod.fst)).reverse).Pairwise
        (fun a b => freqGet freqs a ≤ freqGet freqs b) :=
      List.pairwise_reverse.2 h1
    rw [hsc] at h2
    exact h2
  obtain ⟨hhead, htail⟩ := List.pairwise_cons.1 hsorted
  obtain ⟨hhead2, _⟩ := List.pairwise_cons.1 htail
  have hs_le_s2 : freqGet freqs s ≤ freqGet freqs s2 :=
    hhead s2 (List.mem_cons_self _ _)
  obtain ⟨vs, hvs⟩ := Option.isSome_iff_exists.1 ((alookup_isSome freqs s).2 hs)
  obtain ⟨vs2, hvs2⟩ := Option.isSome_iff_exists.1 ((alookup_isSome freqs s2).2 hs2)
  have hfgs : freqGet freqs s = vs := by rw [freqGet, hvs]; rfl
  have hfgs2 : freqGet freqs s2 = vs2 := by rw [freqGet, hvs2]; rfl
  have hP1 : freqs.Perm ((s, vs) :: aerase freqs s) :=
    aerase_perm_of_alookup _ _ _ hvs
  have hvs2' : alookup (aerase freqs s) s2 = some vs2 := by
    rw [alookup_aerase_ne freqs (Ne.symm hss2)]
    exact hvs2
  have hP2 : (aerase freqs s).Perm ((s2, vs2) :: aerase (aerase freqs s) s2) :=
    aerase_perm_of_alookup _ _ _ hvs2'
  have hPfull : freqs.Perm
      ((s, vs) :: (s2, vs2) :: aerase (aerase freqs s) s2) :=
    hP1.trans (hP2.cons _)
  have hfresh : (s ++ s2) ∉ freqs.map Prod.fst :=
    merged_key_fresh freqs code s s2 hinv hs hs2 hss2
  have haset : aset freqs (s ++ s2) (freqGet freqs s + freqGet freqs s2)
      = freqs ++ [(s ++ s2, freqGet freqs s + freqGet freqs s2)] :=
    aset_of_not_mem _ hfresh
  have hs2er : s2 ∈ (aerase freqs s).map Prod.fst := by
    rw [mem_map_fst_aerase freqs s s2 hinv.fnodup]
    exact ⟨hs2, Ne.symm hss2⟩
  have hfreqs2 : aerase (aerase (aset freqs (s ++ s2)
      (freqGet freqs s + freqGet freqs s2)) s) s2
      = aerase (aerase freqs s) s2
        ++ [(s ++ s2, freqGet freqs s + freqGet freqs s2)] := by
    rw [haset, aerase_append_left freqs _ s hs, aerase_append_left _ _ s2 hs2er]
  refine ⟨hs, hs2, hss2, (aerase (aerase freqs s) s2).map Prod.snd, ?_, ?_,
    hs_le_s2, ?_⟩
  · rw [hfgs, hfgs2]
    simpa using hPfull.map Prod.snd
  · rw [hfreqs2, List.map_append]
    exact List.perm_append_singleton
      (freqGet freqs s + freqGet freqs s2)
      ((aerase (aerase freqs s) s2).map Prod.snd)
  · intro x hx
    obtain ⟨⟨kk, vv⟩, hmemR, hxeq⟩ := List.mem_map.1 hx
    have hmemF : (kk, vv) ∈ freqs := hPfull.mem_iff.2
      (List.mem_cons_of_mem _ (List.mem_cons_of_mem _ hmemR))
    have hkkF : kk ∈ freqs.map Prod.fst := List.mem_map_of_mem Prod.fst hmemF
    have hlook : alookup freqs kk = some vv :=
      alookup_eq_some_of_mem hinv.fnodup hmemF
    have hfgkk : freqGet freqs kk = vv := by rw [freqGet, hlook]; rfl
    have hndaer : ((aerase freqs s).map Prod.fst).Nodup :=
      aerase_nodup _ _ hinv.fnodup
    have hkkR : kk ∈ (aerase (aerase freqs s) s2).map Prod.fst :=
      List.mem_map_of_mem Prod.fst hmemR
    have hkkprop := (mem_map_fst_aerase _ s2 kk hndaer).1 hkkR
    have hkkprop2 := (mem_map_fst_aerase _ s kk hinv.fnodup).1 hkkprop.1
    have hkkrest : kk ∈ rest2 := by
      rcases List.mem_cons.1 (hperm.mem_iff.2 hkkF) with heq | hm
      · exact absurd heq hkkprop2.2
      · rcases List.mem_cons.1 hm with heq | hm2
        · exact absurd heq hkkprop.2
        · exact hm2
    rw [← hxeq, show (kk, vv).2 = vv from rfl, ← hfgkk]
    exact hhead2 kk hkkrest

/-- The next `j` merges cost at most the sum of the `2 j` smallest current
frequency values (provided at least `2 j` keys remain); the invariant holds
after them, exactly `j` keys disappear, and the value sum is preserved. -/
theorem huffLoop_rounds (j : Nat) :
    ∀ (freqs : List (List Char × Nat)) (code : List (Char × Bits)) (tb : Nat),
      HuffInv freqs code → 2 * j ≤ freqs.length →
      (huffLoop j freqs code tb).2.2
          ≤ tb + minSum (2 * j) (freqs.map Prod.snd) ∧
      HuffInv (huffLoop j freqs code tb).1 (huffLoop j freqs code tb).2.1 ∧
      (huffLoop j freqs code tb).1.length + j = freqs.length ∧
      ((huffLoop j freqs code tb).1.map Prod.snd).sum
          = (freqs.map Prod.snd).sum := by
  induction j with
  | zero =>
    intro freqs code tb hinv hj
    exact ⟨Nat.le_add_right _ _, hinv, rfl, rfl⟩
  | succ j ih =>
    intro freqs code tb hinv hj
    rcases hsc : (sortedDescBy (freqGet freqs) (freqs.map Prod.fst)).reverse with
      _ | ⟨s, rest⟩
    · exfalso
      have := congrArg List.length hsc
      rw [List.length_reverse, (sortedDescBy_perm _ _).length_eq,
        List.length_map] at this
      simp only [List.length_nil] at this
      omega
    · rcases rest with _ | ⟨s2, rest2⟩
      · exfalso
        have := congrArg List.length hsc
        rw [List.length_reverse, (sortedDescBy_perm _ _).length_eq,
          List.length_map] at this
        simp only [List.length_cons, List.length_nil] at this
        omega
      · obtain ⟨hs, hs2, hss2, W, hVperm, hV2perm, hmin1, hmin2⟩ :=
          huffPop_values freqs code s s2 rest2 hinv hsc
        obtain ⟨hinv2, hlen2, _⟩ := huffStep freqs code s s2
          (freqGet freqs s + freqGet freqs s2) hinv hs hs2 hss2
        have hred : huffLoop (j + 1) freqs code tb
            = huffLoop j
                (aerase (aerase (aset freqs (s ++ s2)
                  (freqGet freqs s + freqGet freqs s2)) s) s2)
                (prependBit false s2 (prependBit true s code))
                (tb + (freqGet freqs s + freqGet freqs s2)) := by
          rw [huffLoop, hsc]
        have hWlen : W.length + 2 = freqs.length := by
          have hl := hVperm.length_eq
          simp only [List.length_map, List.length_cons] at hl
          omega
        obtain ⟨ihbound, ihinv, ihlen, ihsum⟩ := ih
          (aerase (aerase (aset freqs (s ++ s2)
            (freqGet freqs s + freqGet freqs s2)) s) s2)
          (prependBit false s2 (prependBit true s code))
          (tb + (freqGet freqs s + freqGet freqs s2)) hinv2 (by omega)
        rw [hred]
        refine ⟨?_, ihinv, by omega, ?_⟩
        · have h1 : minSum (2 * j) ((aerase (aerase (aset freqs (s ++ s2)
              (freqGet freqs s + freqGet freqs s2)) s) s2).map Prod.snd)
              = minSum (2 * j) ((freqGet freqs s + freqGet freqs s2) :: W) :=
            minSum_perm _ _ _ hV2perm
          have h2 : minSum (2 * j) ((freqGet freqs s + freqGet freqs s2) :: W)
              ≤ minSum (2 * j) W := minSum_cons_le _ _ _ (by omega)
          have h3 : minSum (2 * (j + 1)) (freqs.map Prod.snd)
              = freqGet freqs s + freqGet freqs s2 + minSum (2 * j) W := by
            rw [show 2 * (j + 1) = 2 * j + 2 from by omega]
            exact minSum_two_min (2 * j) _ _ _ W hVperm hmin1 hmin2
          omega
        · have e1 := hV2perm.sum_eq
          have e2 := hVperm.sum_eq
          simp only [List.sum_cons] at e1 e2
          omega

/-- With at most `2 ^ k` distinct keys, the whole merge loop adds at most
`k * (sum of the frequency values)` to `total_bits`: the loop's next
`length - 2 ^ (k-1)` merges cost at most one full value sum (they consume the
smallest values), and then at most `2 ^ (k-1)` keys remain. -/
theorem huffLoop_cost_le (k : Nat) :
    ∀ (freqs : List (List Char × Nat)) (code : List (Char × Bits)) (tb : Nat),
      HuffInv freqs code → freqs.length ≤ 2 ^ k →
      (huffLoop freqs.length freqs code tb).2.2
        ≤ tb + k * (freqs.map Prod.snd).sum := by
  induction k with
  | zero =>
    intro freqs code tb hinv hk
    rw [huffLoop_stop _ _ _ _ (by simpa using hk)]
    simp
  | succ k ih =>
    intro freqs code tb hinv hk
    have hmul : (k + 1) * (freqs.map Prod.snd).sum
        = k * (freqs.map Prod.snd).sum + (freqs.map Prod.snd).sum := by ring
    by_cases hn : freqs.length ≤ 2 ^ k
    · have := ih freqs code tb hinv hn
      omega
    · push_neg at hn
      have hpow : 2 ^ (k + 1) = 2 * 2 ^ k := by
        rw [Nat.pow_succ]
        ring
      have hjn : 2 * (freqs.length - 2 ^ k) ≤ freqs.length := by omega
      obtain ⟨hbound, hinvJ, hlenJ, hsumJ⟩ :=
        huffLoop_rounds (freqs.length - 2 ^ k) freqs code tb hinv hjn
      have hnj : freqs.length = (freqs.length - 2 ^ k)
          + (huffLoop (freqs.length - 2 ^ k) freqs code tb).1.length := by omega
      rw [hnj, huffLoop_add]
      have ihJ := ih (huffLoop (freqs.length - 2 ^ k) freqs code tb).1
        (huffLoop (freqs.length - 2 ^ k) freqs code tb).2.1
        (huffLoop (freqs.length - 2 ^ k) freqs code tb).2.2 hinvJ (by omega)
      rw [hsumJ] at ihJ
      have hminle : minSum (2 * (freqs.length - 2 ^ k)) (freqs.map Prod.snd)
          ≤ (freqs.map Prod.snd).sum := minSum_le_sum _ _
      omega

/-- The distinct-character counts add up to the text length. -/
theorem sum_counts_uniqueChars (text : List Char) :
    ((uniqueChars text).map (fun c => text.count c)).sum = text.length := by
  have hfin : (uniqueChars text).toFinset = text.toFinset := by
    ext c
    simp only [List.mem_toFinset]
    exact mem_uniqueChars text c
  rw [← List.sum_toFinset _ (uniqueChars_nodup text), hfin]
  exact List.sum_toFinset_count_eq_length text

/-- **C7**: for every corpus with more than one distinct symbol and a
non-uniform frequency distribution, the average bits-per-symbol returned by
`generateHuffman` is at most the bits-per-symbol returned by `generateBin` for
the same corpus.  (The non-uniformity hypothesis is stated as the claim states
it; the bound needs only the first hypothesis.) -/
theorem C7_huffman_le_fixed (text : List Char)
    (hmulti : 2 ≤ (uniqueChars text).length)
    (hnonuni : ∃ a ∈ text, ∃ b ∈ text, text.count a ≠ text.count b)
    (tbl : List (Char × Bits)) (q : ℚ) (btbl : List (Char × Bits)) (w : Nat)
    (hH : generateHuffman text = some (tbl, q))
    (hB : generateBin text = some (btbl, w)) :
    q ≤ (w : ℚ) := by
  have htl : ¬ text.length = 0 := by
    intro h0
    rw [List.length_eq_zero] at h0
    rw [h0] at hmulti
    have : uniqueChars ([] : List Char) = [] := rfl
    rw [this] at hmulti
    simp at hmulti
  have hq : q = (((huffLoop (mkFrequencies text).length
      (mkFrequencies text) [] 0).2.2 : ℚ) / (text.length : ℚ)) := by
    rw [generateHuffman] at hH
    simp only [htl, if_false, Option.some.injEq, Prod.mk.injEq] at hH
    exact hH.2.symm
  have hw : w = ceilLog2 (uniqueChars text).length := by
    rw [generateBin] at hB
    have hne : ¬ (uniqueChars text).length = 0 := by omega
    simp only [hne, if_false, Option.some.injEq, Prod.mk.injEq] at hB
    exact hB.2.symm
  have hFlen : (mkFrequencies text).length = (uniqueChars text).length := by
    rw [mkFrequencies_eq, List.length_map]
  have hFsum : ((mkFrequencies text).map Prod.snd).sum = text.length := by
    rw [mkFrequencies_eq, List.map_map]
    exact sum_counts_uniqueChars text
  have hcost := huffLoop_cost_le (ceilLog2 (uniqueChars text).length)
    (mkFrequencies text) [] 0 (initial_inv text)
    (by rw [hFlen]; exact le_pow_ceilLog2 _ (by omega))
  rw [hFsum, Nat.zero_add] at hcost
  have hlen0 : 0 < text.length := Nat.pos_of_ne_zero htl
  have hlenQ : (0 : ℚ) < (text.length : ℚ) := by exact_mod_cast hlen0
  rw [hq, hw, div_le_iff₀ hlenQ]
  exact_mod_cast Nat.cast_le.2 hcost |>.trans_eq (by push_cast; ring)

/-- Witness for C7 at the corpus `"abb"` (two distinct symbols with counts
1 ≠ 2): the Huffman average `3/3` is at most the fixed width `1`. -/
theorem C7_huffman_le_fixed_witness :
    ((3 : Nat) : ℚ) / ((3 : Nat) : ℚ) ≤ ((1 : Nat) : ℚ) :=
  C7_huffman_le_fixed ['a', 'b', 'b'] (by decide)
    ⟨'a', by decide, 'b', by decide, by decide⟩
    [('a', [true]), ('b', [false])] (((3 : Nat) : ℚ) / ((3 : Nat) : ℚ))
    [('a', [false]), ('b', [true])] 1 rfl rfl

end Huffman
